import Mathlib

/-!
Shallow embedding of the connection tarpit `ges` (`main.go`): the payload
generator `getRandomData`, the connection identifier `makeConnID` and the
per-connection handler `handle`, followed by theorems about them.

Conventions of the embedding.

* A byte is a `Nat` (its value); a byte slice or string is a `List Nat`.
* `uint64` values are `Nat`s below `2 ^ 64`; unsigned subtraction is written
  with an explicit reduction modulo `2 ^ 64`; the `int64` total `wt` wraps.
* A run-time panic (`make` with a length that is out of range, index out of
  range, `rand.Intn` on an argument that is not positive) is the result
  `none`. The largest length that `make` accepts is the parameter `maxAlloc`
  (the constant of that name in the run-time system, `2 ^ 48` on 64-bit
  Linux); memory within that limit is taken to be there.
* A `float64` that is not negative is the natural number or fraction it
  stands for; conversion to `float64` and the product of two `float64` round
  to 53 significant bits, to nearest, ties to even. The exponent range is
  not modelled: it is not left by the values that occur, except by products
  so small that their truncation is zero either way.
* The random source is a parameter: the raw values behind the successive
  calls of `rand.Intn` and the values of the successive calls of
  `rand.Float64`.
* A connection is a parameter: what each successive call of `SetDeadline`,
  `Read` and `Write` returns. A run of `handle` is the list of the calls it
  makes on the connection, its sleeps and its log lines.
* `hash/adler32` and the verbs of `fmt` are modelled after the library.
-/

namespace Ges

/-! ## Payload generator -/

/-- The byte table `alnum` of `main.go`. -/
def alnum : List Nat :=
  "abcdefghijklmnopqrstuvwxyzABCDEFGHIJKLMNOPQRSTUVWXYZ0123456789+/".toList.map Char.toNat

/-- The global `alnumlen = len(alnum)`. -/
def alnumlen : Nat := alnum.length

/-- Size of the `uint64` range. -/
def u64 : Nat := 18446744073709551616

/-- Subtraction on `uint64`, wrapping around. -/
def subU64 (a b : Nat) : Nat := (a + u64 - b % u64) % u64

/-- Model of `rand.Intn(n)`: panics when `n` is not positive, otherwise maps the
raw outcome of the source into the half-open interval from `0` to `n`. -/
def Intn (n raw : Nat) : Option Nat :=
  if n = 0 then none else some (raw % n)

/-- Indexed store `buf[i] = v`, with the bounds check of the language. -/
def setByte (buf : List Nat) (i v : Nat) : Option (List Nat) :=
  if i < buf.length then some (buf.set i v) else none

/-- Whether `make([]byte, n)` goes through: the length has to fit an `int`
(it is below `2 ^ 63`) and must not exceed `maxAlloc`, the largest length the
run-time system allocates. -/
def canAlloc (maxAlloc n : Nat) : Bool :=
  decide (n < 9223372036854775808) && decide (n ≤ maxAlloc)

/-- The call `make([]byte, n)` for a `uint64` value `n`: a slice of `n` zero
bytes, or the panic "makeslice: len out of range". -/
def makeBytes (maxAlloc n : Nat) : Option (List Nat) :=
  if canAlloc maxAlloc n = true then some (List.replicate n 0) else none

/-- The loop `for i := 0; i < len(buf)-3; i++ { buf[i] = alnum[rand.Intn(alnumlen)] }`
of `getRandomData`: the first argument counts the iterations still to run, the
second is `i`; `draws i` is the raw outcome behind the call made at index `i`. -/
def fillLoop (draws : Nat → Nat) : Nat → Nat → List Nat → Option (List Nat)
  | 0, _, buf => some buf
  | k + 1, i, buf =>
    match Intn alnumlen (draws i) with
    | none => none
    | some r =>
      match alnum[r]? with
      | none => none
      | some b =>
        match setByte buf i b with
        | none => none
        | some buf1 => fillLoop draws k (i + 1) buf1

/-- The function `getRandomData` of `main.go`; 61 is the byte `=` and 10 is the
newline. -/
def getRandomData (maxAlloc amount : Nat) (draws : Nat → Nat) : Option (List Nat) :=
  let amount := if amount < 4 then 4 else amount
  match makeBytes maxAlloc amount with
  | none => none
  | some buf =>
    match fillLoop draws (buf.length - 3) 0 buf with
    | none => none
    | some buf1 =>
      match setByte buf1 (subU64 amount 3) 61 with
      | none => none
      | some buf2 =>
        match setByte buf2 (subU64 amount 2) 61 with
        | none => none
        | some buf3 => setByte buf3 (subU64 amount 1) 10

/-! ## Arithmetic of `float64` -/

/-- The number of significant bits of `n`, with `fuel` halvings at most. -/
def bitLenAux : Nat → Nat → Nat
  | 0, _ => 0
  | fuel + 1, n => if n = 0 then 0 else bitLenAux fuel (n / 2) + 1

/-- The number of significant bits of `n` (`bits.Len`). -/
def bitLen (n : Nat) : Nat := bitLenAux n n

/-- Rounding to 53 significant bits, to nearest, ties to even: what the
conversion of an integer to `float64` and the product of two `float64` do to
the exact value. With `s` bits too many, `q` keeps the leading 53 bits and
`rem` is what is cut off. -/
def round53 (p : Nat) : Nat :=
  let s := bitLen p - 53
  let q := p / 2 ^ s
  let rem := p % 2 ^ s
  if 2 * rem < 2 ^ s ∨ (2 * rem = 2 ^ s ∧ q % 2 = 0) then q * 2 ^ s else (q + 1) * 2 ^ s

/-- A value of `rand.Float64()`: a `float64` that is at least `0` and below
`1`, that is `mant / 2 ^ exp` with a mantissa of at most 53 bits. -/
structure UnitDraw where
  mant : Nat
  exp : Nat
  mant_lt : mant < 9007199254740992
  exp_ge : 53 ≤ exp
  exp_le : exp ≤ 1074

/-- The argument `uint64(float64(*lineLength) * rand.Float64())` that `handle`
passes to `getRandomData`: the flag is converted, the product with the draw
`mant / 2 ^ exp` is rounded, and the result is truncated. -/
def lineAmount (lineLength : Nat) (r : UnitDraw) : Nat :=
  (round53 (round53 lineLength * r.mant) / 2 ^ r.exp) % u64

/-! ## Connection identifier -/

/-- The modulus `adler32.mod`: the largest prime below `2 ^ 16`. -/
def adlerMod : Nat := 65521

/-- One byte of `adler32.update`: the digest holds `s2 << 16 | s1`; the byte is
added to `s1`, the new `s1` to `s2`, both modulo `adlerMod`. -/
def adlerStep (d b : Nat) : Nat :=
  let s1 := (d % 65536 + b) % adlerMod
  let s2 := (d / 65536 + s1) % adlerMod
  s2 * 65536 + s1

/-- The library function `adler32.update`: add the bytes `p` to the digest `d`. -/
def adlerUpdate (d : Nat) (p : List Nat) : Nat :=
  p.foldl adlerStep d

/-- The digest made by `adler32.New()`. -/
def adlerNew : Nat := 1

/-- The method `Write` of the digest (what `fmt.Fprintf(s, ...)` calls with
the formatted bytes). -/
def adlerWrite (d : Nat) (p : List Nat) : Nat := adlerUpdate d p

/-- The method `Sum32` of the digest: the digest as a `uint32`. -/
def adlerSum32 (d : Nat) : Nat := d % 4294967296

/-- The digit table `ldigits` of the package `fmt`. -/
def ldigits : List Nat := "0123456789abcdefx".toList.map Char.toNat

/-- The byte `ldigits[d]`. -/
def digitByte (d : Nat) : Nat := ldigits.getD d 0

/-- The digit loop of `fmtInteger` in the package `fmt`: while `u` has more
than one digit, the last digit is stored in front of the digits found so far
and `u` is divided by the base; the remaining digit comes first. The first
argument bounds the number of iterations. -/
def fmtLoop (base : Nat) : Nat → Nat → List Nat → List Nat
  | 0, u, acc => digitByte u :: acc
  | fuel + 1, u, acc =>
    if base ≤ u then fmtLoop base fuel (u / base) (digitByte (u % base) :: acc)
    else digitByte u :: acc

/-- The bytes that the verb `%x` produces for an unsigned value. -/
def fmtHex (v : Nat) : List Nat := fmtLoop 16 v v []

/-- The bytes that the verb `%d` produces for the `int64` value `t`: the
digits of its absolute value, after a minus sign if it is negative. -/
def fmtDecimal (t : Int) : List Nat :=
  if t < 0 then 45 :: fmtLoop 10 t.natAbs t.natAbs [] else fmtLoop 10 t.natAbs t.natAbs []

/-- The function `makeConnID` of `main.go`, as a function of the bytes of the
string of `c.RemoteAddr()` and of the value of `time.Now().Unix()`. -/
def makeConnID (addr : List Nat) (now : Int) : List Nat :=
  let s := adlerNew
  let s := adlerWrite s addr
  let s := adlerWrite s (fmtDecimal now)
  fmtHex (adlerSum32 s)

/-- Adler-32 as RFC 1950 defines it: `a` is one plus the sum of all bytes, `b`
is the sum of the values `a` takes after each byte, both modulo 65521; the
checksum is `b * 65536 + a`. -/
def adler32Spec (p : List Nat) : Nat :=
  let a := (1 + p.sum) % 65521
  let b := (((List.range p.length).map fun i => 1 + (p.take (i + 1)).sum).sum) % 65521
  b * 65536 + a

/-- The character of a hexadecimal digit, in lowercase: `0` to `9`, then `a`
to `f`. -/
def hexDigitChar (d : Nat) : Nat := if d < 10 then 48 + d else 87 + d

/-- The lowercase hexadecimal rendering of a number: its digits to the base
16, the most significant first; the number zero is the single digit `0`. -/
def hexRendering (v : Nat) : List Nat :=
  if v = 0 then [48] else (Nat.digits 16 v).reverse.map hexDigitChar

/-- The decimal digits of an integer: a minus sign if it is negative, then the
digits of its absolute value to the base 10, the most significant first. -/
def decimalRendering (t : Int) : List Nat :=
  (if t < 0 then [45] else []) ++
    (if t = 0 then [48] else (Nat.digits 10 t.natAbs).reverse.map fun d => 48 + d)

/-! ## Connection handler -/

/-- The errors a connection returns, as far as `handle` tells them apart. -/
inductive NetErr
  | deadlineExceeded
  | other
  deriving DecidableEq, Repr

/-- The test `errors.Is(err, os.ErrDeadlineExceeded)`. -/
def isDeadlineExceeded : Option NetErr → Bool
  | some NetErr.deadlineExceeded => true
  | _ => false

/-- The behaviour of a `net.Conn`: what its `k`-th call of `SetDeadline`, of
`Read` (into the 128-byte buffer) and of `Write` returns (`none` is the `nil`
error). -/
structure Conn where
  setDeadline : Nat → Option NetErr
  read : Nat → Nat × Option NetErr
  write : Nat → Nat × Option NetErr

/-- The random source seen by one handler: the raw outcome behind its `k`-th
call of `rand.Intn` and the value of its `k`-th call of `rand.Float64`. -/
structure RandSrc where
  ints : Nat → Nat
  floats : Nat → UnitDraw

/-- The flags read by `handle`: `*lineLength` (a `uint64`) and `*delay` (a
`time.Duration`, nanoseconds as an `int64`). -/
structure Config where
  lineLength : Nat
  delay : Int

/-- What `handle` does to the outside: the calls on the connection, the calls
of `time.Sleep` and the log lines (by the line of `main.go` that prints them;
the total of line 90 is kept). -/
inductive Event
  | logConnection
  | setDeadline
  | logDeadlineRead
  | read (len : Nat)
  | logReadError
  | logTimeout
  | logDeadlineWrite
  | write (data : List Nat)
  | logClosed (wt : Int)
  | sleep (d : Int)
  | close
  deriving DecidableEq, Repr

/-- How far a run of `handle` has come. -/
inductive Status
  | running
  | returned
  | panicked
  deriving DecidableEq, Repr

/-- A run of `handle`: the events so far, and whether it has ended. -/
structure Run where
  trace : List Event
  status : Status
  deriving DecidableEq, Repr

/-- The run `r` preceded by the events `pre`. -/
def Run.after (pre : List Event) (r : Run) : Run :=
  ⟨pre ++ r.trace, r.status⟩

/-- The length `len(readbuf)` of the scratch buffer. -/
def readbufLen : Nat := 128

/-- Addition on `int64`, wrapping around. -/
def wrapInt64 (x : Int) : Int :=
  (x + 9223372036854775808) % 18446744073709551616 - 9223372036854775808

/-- The value `time.Duration(float64(*delay) * rand.Float64())`: the flag is
converted, the product with the draw `mant / 2 ^ exp` is rounded, and the
result is truncated towards zero. -/
def randSleep (delay : Int) (r : UnitDraw) : Int :=
  Int.sign delay * ((round53 (round53 delay.natAbs * r.mant) / 2 ^ r.exp : Nat) : Int)

/-- How the drain loop ended. -/
inductive Drain
  | running
  | aborted
  | completed
  deriving DecidableEq, Repr

/-- The loop `for n := 0; n < len(readbuf); n, err = c.Read(readbuf) { ... }`
of `handle`, entered with the current `n` and `err`: the condition, the body
(lines 63 to 73), and then the post statement, which is the only call of
`Read`. The first argument bounds the number of iterations; `reads` counts the
calls of `Read` made so far. -/
def drainLoop (c : Conn) : Nat → Nat → Option NetErr → Nat → List Event × Drain
  | 0, _, _, _ => ([], Drain.running)
  | fuel + 1, n, err, reads =>
    if n < readbufLen then
      if err ≠ none ∧ isDeadlineExceeded err = false then
        ([Event.logReadError], Drain.aborted)
      else if n = 0 then
        ([], Drain.completed)
      else if isDeadlineExceeded err = true then
        ([Event.logTimeout], Drain.completed)
      else
        let res := c.read reads
        let rest := drainLoop c fuel res.1 res.2 (reads + 1)
        (Event.read readbufLen :: rest.1, rest.2)
    else
      ([], Drain.completed)

/-- The variables of the stall loop: `wt`, and how many calls of `SetDeadline`,
`Write`, `rand.Intn` and `rand.Float64` the handler has made. -/
structure Stall where
  wt : Int
  deadlines : Nat
  writes : Nat
  ints : Nat
  floats : Nat

/-- The loop `for { ... }` of `handle` (lines 79 to 97); the first argument
bounds the number of iterations. Every `return`, and a panic in
`getRandomData`, runs the deferred `c.Close()`. -/
def stallLoop (maxAlloc : Nat) (c : Conn) (rs : RandSrc) (cfg : Config) : Nat → Stall → Run
  | 0, _ => ⟨[], Status.running⟩
  | fuel + 1, s =>
    match c.setDeadline s.deadlines with
    | some _ => ⟨[Event.setDeadline, Event.logDeadlineWrite, Event.close], Status.returned⟩
    | none =>
      match getRandomData maxAlloc (lineAmount cfg.lineLength (rs.floats s.floats))
          (fun i => rs.ints (s.ints + i)) with
      | none => ⟨[Event.setDeadline, Event.close], Status.panicked⟩
      | some data =>
        let res := c.write s.writes
        let wt := wrapInt64 (s.wt + res.1)
        if res.2 ≠ none ∨ res.1 = 0 then
          ⟨[Event.setDeadline, Event.write data, Event.logClosed wt, Event.close],
            Status.returned⟩
        else
          let randsleep := randSleep cfg.delay (rs.floats (s.floats + 1))
          (stallLoop maxAlloc c rs cfg fuel
            ⟨wt, s.deadlines + 1, s.writes + 1, s.ints + (data.length - 3), s.floats + 2⟩).after
            [Event.setDeadline, Event.write data, Event.sleep randsleep]

/-- The function `handle` of `main.go`; `fuel` bounds the number of iterations
of each of its two loops. The deferred `c.Close()` is the last event of every
run that has ended. -/
def handle (maxAlloc : Nat) (c : Conn) (rs : RandSrc) (cfg : Config) (fuel : Nat) : Run :=
  let err := c.setDeadline 0
  if err ≠ none then
    ⟨[Event.logConnection, Event.setDeadline, Event.logDeadlineRead, Event.close],
      Status.returned⟩
  else
    match drainLoop c fuel 0 err 0 with
    | (tr, Drain.aborted) =>
      ⟨[Event.logConnection, Event.setDeadline] ++ tr ++ [Event.close], Status.returned⟩
    | (tr, Drain.running) =>
      ⟨[Event.logConnection, Event.setDeadline] ++ tr, Status.running⟩
    | (tr, Drain.completed) =>
      (stallLoop maxAlloc c rs cfg fuel ⟨0, 1, 0, 0, 0⟩).after
        ([Event.logConnection, Event.setDeadline] ++ tr)

/-! ## Observations on runs -/

/-- The event is a call of `Read`. -/
def Event.isRead : Event → Bool
  | Event.read _ => true
  | _ => false

/-- The byte total of the log line "Connection closed, wrote ... bytes", when
the run printed it. -/
def reportedTotal : List Event → Option Int
  | [] => none
  | Event.logClosed wt :: _ => some wt
  | _ :: rest => reportedTotal rest

/-- A `Write` result that lets the stall loop go on: no error and a positive
count. -/
def writeOK (res : Nat × Option NetErr) : Bool :=
  res.2 = none ∧ res.1 ≠ 0

/-- The events of the stall iterations whose `Write` succeeded: for each, the
deadline reset, the `Write` of a payload and the sleep. -/
def stallRounds (rounds : List (List Nat × Int)) : List Event :=
  rounds.flatMap fun p => [Event.setDeadline, Event.write p.1, Event.sleep p.2]

/-- The sum of the byte counts of the first `k` calls of `Write`. -/
def writtenTotal (c : Conn) (k : Nat) : Int :=
  ((List.range k).map fun i => ((c.write i).1 : Int)).sum

/-- The sum of the byte counts of those of the first `k` calls of `Write` that
succeeded (no error, positive count). -/
def successTotal (c : Conn) (k : Nat) : Int :=
  ((List.range k).map fun i => if writeOK (c.write i) then ((c.write i).1 : Int) else 0).sum

/-! ## Definitions used to state the properties -/

/-- The symbol that `getRandomData` stores for the raw outcome `raw`. -/
def symbolOf (raw : Nat) : Nat := alnum.getD (raw % alnumlen) 0

/-- The payload of `getRandomData` in closed form. -/
def payloadOf (amount : Nat) (draws : Nat → Nat) : List Nat :=
  (List.range (max amount 4 - 3)).map (fun j => symbolOf (draws j)) ++ [61, 61, 10]

/-- The byte is one of `a`-`z`, `A`-`Z`, `0`-`9`, `+`, `/`. -/
def isSymbol (b : Nat) : Bool :=
  (decide (97 ≤ b) && decide (b ≤ 122)) || (decide (65 ≤ b) && decide (b ≤ 90)) ||
    (decide (48 ≤ b) && decide (b ≤ 57)) || decide (b = 43) || decide (b = 47)

/-- The number has at most 53 significant bits: it is a `float64`. -/
def IsF53 (v : Nat) : Prop := ∃ m t : Nat, m < 2 ^ 53 ∧ v = m * 2 ^ t

/-- How a run of the stall loop ends, after `n` successful iterations, from the
state `s` whose total is `wrapInt64 t`. -/
def StallEnd (maxAlloc : Nat) (c : Conn) (cfg : Config) (fuel : Nat) (s : Stall) (t : Int)
    (n : Nat) (tail : List Event) (st : Status) : Prop :=
  (tail = [] ∧ st = Status.running ∧ n = fuel) ∨
  (tail = [Event.setDeadline, Event.logDeadlineWrite, Event.close] ∧ st = Status.returned ∧
    c.setDeadline (s.deadlines + n) ≠ none ∧ n < fuel) ∨
  (tail = [Event.setDeadline, Event.close] ∧ st = Status.panicked ∧
    canAlloc maxAlloc (max cfg.lineLength 4) = false ∧ n < fuel) ∨
  (∃ d, tail = [Event.setDeadline, Event.write d,
      Event.logClosed (wrapInt64 (t + (writtenTotal c (s.writes + n + 1) -
        writtenTotal c s.writes))), Event.close] ∧ st = Status.returned ∧
    writeOK (c.write (s.writes + n)) = false ∧ n < fuel)

/-- The value of `maxAlloc` in the run-time system on 64-bit Linux, `2 ^ 48`. -/
def linuxMaxAlloc : Nat := 281474976710656

/-- The draw `0`. -/
def zeroDraw : UnitDraw := ⟨0, 53, by decide, by decide, by decide⟩

/-- The draw one half. -/
def halfDraw : UnitDraw := ⟨4503599627370496, 53, by decide, by decide, by decide⟩

/-- The largest draw, `1 - 2 ^ (-53)`. -/
def topDraw : UnitDraw := ⟨9007199254740991, 53, by decide, by decide, by decide⟩

/-- A random source all of whose draws are zero. -/
def zeroRand : RandSrc := ⟨fun _ => 0, fun _ => zeroDraw⟩

/-- A random source all of whose draws are the largest. -/
def topRand : RandSrc := ⟨fun _ => 63, fun _ => topDraw⟩

/-- The default flags: lines of up to 1400 bytes, delays of up to three seconds. -/
def defaultConfig : Config := ⟨1400, 3000000000⟩

/-- The flags with the longest line length that `-l` accepts. -/
def hugeLineConfig : Config := ⟨18446744073709551615, 3000000000⟩

/-- A peer that never sends anything and keeps reading: a `Read` would run into
the deadline, every `Write` of four bytes goes through. -/
def silentPeer : Conn :=
  ⟨fun _ => none, fun _ => (0, some NetErr.deadlineExceeded), fun _ => (4, none)⟩

/-- A peer that reset the connection: every `Read` and every `Write` fails with
an error that is not a timeout. -/
def resetPeer : Conn :=
  ⟨fun _ => none, fun _ => (0, some NetErr.other), fun _ => (0, some NetErr.other)⟩

/-- A peer that sent nothing and closed its write side (a `Read` yields zero
bytes and end of file) and keeps reading. -/
def eofPeer : Conn :=
  ⟨fun _ => none, fun _ => (0, some NetErr.other), fun _ => (4, none)⟩

/-- The peer `eofPeer` on a connection whose second `SetDeadline` fails. -/
def eofPeerDeadlineFails : Conn :=
  ⟨fun k => if k = 1 then some NetErr.other else none, fun _ => (0, some NetErr.other),
    fun _ => (4, none)⟩

/-- A peer that takes one payload and then goes away: the second `Write` fails. -/
def oneWritePeer : Conn :=
  ⟨fun _ => none, fun _ => (0, some NetErr.deadlineExceeded),
    fun k => if k < 1 then (4, none) else (0, some NetErr.other)⟩

/-- A peer whose first `Write` times out after two of the four bytes. -/
def shortWritePeer : Conn :=
  ⟨fun _ => none, fun _ => (0, some NetErr.deadlineExceeded),
    fun _ => (2, some NetErr.deadlineExceeded)⟩

/-- A peer that takes two payloads; the third `Write` times out after two bytes. -/
def twoWritesPeer : Conn :=
  ⟨fun _ => none, fun _ => (0, some NetErr.deadlineExceeded),
    fun k => if k < 2 then (4, none) else (2, some NetErr.deadlineExceeded)⟩

/-! ## Lemmas -/

theorem alnumlen_eq : alnumlen = 64 := by decide

theorem alnum_get_symbolOf (raw : Nat) : alnum[raw % alnumlen]? = some (symbolOf raw) := by
  have h : raw % alnumlen < alnum.length := Nat.mod_lt _ (by decide)
  unfold symbolOf
  rw [List.getD_eq_getElem?_getD, List.getElem?_eq_getElem h]
  rfl

theorem set_take_succ (buf : List Nat) (i v : Nat) (h : i < buf.length) :
    (buf.set i v).take (i + 1) = buf.take i ++ [v] := by
  induction buf generalizing i with
  | nil => simp at h
  | cons x xs ih =>
    cases i with
    | zero => simp
    | succ j =>
      simp only [List.length_cons, Nat.add_lt_add_iff_right] at h
      simp [ih j h]

theorem set_drop_succ (buf : List Nat) (i v k : Nat) :
    (buf.set i v).drop (i + 1 + k) = buf.drop (i + 1 + k) := by
  induction buf generalizing i with
  | nil => simp
  | cons x xs ih =>
    cases i with
    | zero => simp [Nat.add_comm]
    | succ j =>
      have e : j + 1 + 1 + k = (j + 1 + k) + 1 := by omega
      rw [e]
      simp [ih j]

theorem fillLoop_eq (draws : Nat → Nat) (k : Nat) :
    ∀ (i : Nat) (buf : List Nat), i + k ≤ buf.length →
      fillLoop draws k i buf =
        some (buf.take i ++ (List.range k).map (fun j => symbolOf (draws (i + j)))
          ++ buf.drop (i + k)) := by
  induction k with
  | zero => intro i buf _; simp [fillLoop]
  | succ k ih =>
    intro i buf h
    have hi : i < buf.length := by omega
    have hlen : (i + 1) + k ≤ (buf.set i (symbolOf (draws i))).length := by
      rw [List.length_set]; omega
    simp only [fillLoop, Intn, alnumlen_eq]
    have hs := alnum_get_symbolOf (draws i)
    rw [alnumlen_eq] at hs
    simp only [show (64 : Nat) ≠ 0 by decide, if_false, hs, setByte, hi, if_true]
    rw [ih (i + 1) _ hlen, set_take_succ buf i _ hi, set_drop_succ buf i _ k]
    rw [List.range_succ_eq_map]
    simp [Function.comp, Nat.add_assoc, Nat.add_comm 1]

theorem set_suffix (pre : List Nat) (suf : List Nat) (j v : Nat) :
    (pre ++ suf).set (pre.length + j) v = pre ++ suf.set j v := by
  induction pre with
  | nil => simp
  | cons x xs ih =>
    have e : (x :: xs).length + j = (xs.length + j) + 1 := by simp; omega
    rw [e]
    simp [ih]

theorem subU64_small (a b : Nat) (ha : a < u64) (hb : b ≤ a) : subU64 a b = a - b := by
  unfold subU64 u64 at *
  omega

theorem getRandomData_eq (maxAlloc amount : Nat) (draws : Nat → Nat)
    (h : canAlloc maxAlloc (max amount 4) = true) :
    getRandomData maxAlloc amount draws = some (payloadOf amount draws) := by
  have key : ∀ a : Nat, 4 ≤ a → a < u64 →
      (match fillLoop draws ((List.replicate a 0).length - 3) 0 (List.replicate a 0) with
        | none => none
        | some buf1 =>
          match setByte buf1 (subU64 a 3) 61 with
          | none => none
          | some buf2 =>
            match setByte buf2 (subU64 a 2) 61 with
            | none => none
            | some buf3 => setByte buf3 (subU64 a 1) 10) =
      some ((List.range (a - 3)).map (fun j => symbolOf (draws j)) ++ [61, 61, 10]) := by
    intro a ha4 hau
    have hfill := fillLoop_eq draws (a - 3) 0 (List.replicate a 0) (by simp)
    have hdrop : (List.replicate a (0 : Nat)).drop (a - 3) = [0, 0, 0] := by
      rw [List.drop_replicate]
      have : a - (a - 3) = 3 := by omega
      rw [this]; rfl
    simp only [List.length_replicate, List.take_zero, List.nil_append, Nat.zero_add, hdrop]
      at hfill ⊢
    rw [hfill]
    have hl : ((List.range (a - 3)).map (fun j => symbolOf (draws j))).length = a - 3 := by simp
    have e3 : subU64 a 3 = ((List.range (a - 3)).map (fun j => symbolOf (draws j))).length + 0 := by
      rw [subU64_small a 3 hau (by omega), hl]; rfl
    have e2 : subU64 a 2 = ((List.range (a - 3)).map (fun j => symbolOf (draws j))).length + 1 := by
      rw [subU64_small a 2 hau (by omega), hl]; omega
    have e1 : subU64 a 1 = ((List.range (a - 3)).map (fun j => symbolOf (draws j))).length + 2 := by
      rw [subU64_small a 1 hau (by omega), hl]; omega
    have inb : ∀ (suf : List Nat) (j : Nat), j < suf.length →
        ((List.range (a - 3)).map (fun j => symbolOf (draws j))).length + j <
          ((List.range (a - 3)).map (fun j => symbolOf (draws j)) ++ suf).length := by
      intro suf j hj
      rw [List.length_append]; omega
    simp only [setByte]
    rw [e3, if_pos (inb _ 0 (by decide)), set_suffix]
    simp only
    rw [e2, if_pos (inb _ 1 (by decide)), set_suffix]
    simp only
    rw [e1, if_pos (inb _ 2 (by decide)), set_suffix]
    rfl
  have hlt : max amount 4 < u64 := by
    simp only [canAlloc, Bool.and_eq_true, decide_eq_true_eq] at h
    unfold u64; omega
  unfold getRandomData payloadOf
  by_cases h4 : amount < 4
  · have hm : max amount 4 = 4 := by omega
    rw [hm] at h hlt
    simp only [h4, if_true, hm, makeBytes, h]
    exact key 4 (by decide) hlt
  · have hm : max amount 4 = amount := by omega
    rw [hm] at h hlt
    simp only [h4, if_false, hm, makeBytes, h, if_true]
    exact key amount (by omega) hlt

/-- The only panic of `getRandomData` is the one of `make`. -/
theorem getRandomData_none (maxAlloc amount : Nat) (draws : Nat → Nat)
    (h : canAlloc maxAlloc (max amount 4) = false) :
    getRandomData maxAlloc amount draws = none := by
  unfold getRandomData
  by_cases h4 : amount < 4
  · have hm : max amount 4 = 4 := by omega
    rw [hm] at h
    simp [h4, makeBytes, h]
  · have hm : max amount 4 = amount := by omega
    rw [hm] at h
    simp [h4, makeBytes, h]

theorem canAlloc_mono (maxAlloc n m : Nat) (hnm : n ≤ m) (h : canAlloc maxAlloc m = true) :
    canAlloc maxAlloc n = true := by
  simp only [canAlloc, Bool.and_eq_true, decide_eq_true_eq] at h ⊢
  omega

/-! ### Rounding to 53 bits -/

theorem bitLenAux_spec (fuel : Nat) : ∀ n : Nat, n ≤ fuel →
    n < 2 ^ bitLenAux fuel n ∧ (n ≠ 0 → 2 ^ (bitLenAux fuel n - 1) ≤ n) := by
  induction fuel with
  | zero =>
    intro n hn
    have : n = 0 := by omega
    subst this
    simp [bitLenAux]
  | succ fuel ih =>
    intro n hn
    by_cases h0 : n = 0
    · subst h0; simp [bitLenAux]
    · obtain ⟨h1, h2⟩ := ih (n / 2) (by omega)
      simp only [bitLenAux, h0, if_false, Nat.add_sub_cancel]
      refine ⟨?_, fun _ => ?_⟩
      · rw [Nat.pow_succ]; omega
      · by_cases h3 : n / 2 = 0
        · have hb : bitLenAux fuel (n / 2) = 0 := by
            rw [h3]; cases fuel <;> simp [bitLenAux]
          rw [hb]; simp; omega
        · have h4 := h2 h3
          have hpos : 1 ≤ bitLenAux fuel (n / 2) := by
            rcases Nat.eq_zero_or_pos (bitLenAux fuel (n / 2)) with hz | hp
            · rw [hz] at h1; simp at h1; exact absurd h1 h3
            · exact hp
          obtain ⟨b, hb⟩ : ∃ b, bitLenAux fuel (n / 2) = b + 1 :=
            ⟨bitLenAux fuel (n / 2) - 1, by omega⟩
          rw [hb] at h4 ⊢
          simp only [Nat.add_sub_cancel] at h4
          rw [Nat.pow_succ]; omega

theorem bitLen_spec (n : Nat) : n < 2 ^ bitLen n ∧ (n ≠ 0 → 2 ^ (bitLen n - 1) ≤ n) :=
  bitLenAux_spec n n (Nat.le_refl n)

theorem round53_cases (p : Nat) :
    (p < 2 ^ 53 ∧ round53 p = p) ∨
    ∃ s q rem : Nat, 1 ≤ s ∧ 2 ^ 52 ≤ q ∧ q < 2 ^ 53 ∧ rem < 2 ^ s ∧ p = q * 2 ^ s + rem ∧
      ((round53 p = q * 2 ^ s ∧ 2 * rem ≤ 2 ^ s) ∨
        (round53 p = (q + 1) * 2 ^ s ∧ 2 ^ s ≤ 2 * rem)) := by
  obtain ⟨hlt, hge⟩ := bitLen_spec p
  by_cases hb : bitLen p ≤ 53
  · left
    have hp : p < 2 ^ 53 := Nat.lt_of_lt_of_le hlt (Nat.pow_le_pow_right (by omega) hb)
    refine ⟨hp, ?_⟩
    have hs : bitLen p - 53 = 0 := by omega
    simp [round53, hs, Nat.mod_one]
  · right
    obtain ⟨s, hs⟩ : ∃ s, bitLen p = s + 1 + 53 := ⟨bitLen p - 54, by omega⟩
    have hp0 : p ≠ 0 := by
      intro h; subst h
      have : bitLen 0 = 0 := by simp [bitLen, bitLenAux]
      omega
    have hge := hge hp0
    rw [hs] at hlt hge
    have e1 : s + 1 + 53 - 1 = 52 + (s + 1) := by omega
    have e2 : s + 1 + 53 = 53 + (s + 1) := by omega
    rw [e1, Nat.pow_add] at hge
    rw [e2, Nat.pow_add] at hlt
    have hSpos : 0 < 2 ^ (s + 1) := Nat.pow_pos (by omega)
    have hq1 : 2 ^ 52 ≤ p / 2 ^ (s + 1) := (Nat.le_div_iff_mul_le hSpos).mpr hge
    have hq2 : p / 2 ^ (s + 1) < 2 ^ 53 := (Nat.div_lt_iff_lt_mul hSpos).mpr hlt
    have hrem : p % 2 ^ (s + 1) < 2 ^ (s + 1) := Nat.mod_lt _ hSpos
    have hdm : p = p / 2 ^ (s + 1) * 2 ^ (s + 1) + p % 2 ^ (s + 1) := by
      rw [Nat.mul_comm]; exact (Nat.div_add_mod p _).symm
    refine ⟨s + 1, p / 2 ^ (s + 1), p % 2 ^ (s + 1), by omega, hq1, hq2, hrem, hdm, ?_⟩
    have hsd : bitLen p - 53 = s + 1 := by omega
    by_cases hc : 2 * (p % 2 ^ (s + 1)) < 2 ^ (s + 1) ∨
        (2 * (p % 2 ^ (s + 1)) = 2 ^ (s + 1) ∧ p / 2 ^ (s + 1) % 2 = 0)
    · left
      refine ⟨by simp only [round53, hsd, if_pos hc], ?_⟩
      rcases hc with h | h
      · omega
      · omega
    · right
      refine ⟨by simp only [round53, hsd, if_neg hc], ?_⟩
      by_contra hlt2
      exact hc (Or.inl (by omega))

theorem isF53_round53 (p : Nat) : IsF53 (round53 p) := by
  rcases round53_cases p with ⟨hp, he⟩ | ⟨s, q, rem, _, _, hq, _, _, ⟨he, _⟩ | ⟨he, _⟩⟩
  · exact ⟨p, 0, hp, by rw [he]; simp⟩
  · exact ⟨q, s, hq, he⟩
  · by_cases hq1 : q + 1 < 2 ^ 53
    · exact ⟨q + 1, s, hq1, he⟩
    · have : q + 1 = 2 ^ 53 := by omega
      refine ⟨1, 53 + s, by norm_num, ?_⟩
      rw [he, this, Nat.pow_add]; ring

theorem round53_pos (p : Nat) (hp : 1 ≤ p) : 1 ≤ round53 p := by
  rcases round53_cases p with ⟨_, he⟩ | ⟨s, q, rem, _, hq, _, _, _, ⟨he, _⟩ | ⟨he, _⟩⟩
  · omega
  · rw [he]
    have : 1 ≤ 2 ^ s := Nat.pow_pos (by omega)
    have : 1 ≤ q := by omega
    exact Nat.mul_pos (by omega) (by omega)
  · rw [he]
    have : 1 ≤ 2 ^ s := Nat.pow_pos (by omega)
    exact Nat.mul_pos (by omega) (by omega)

/-- The representable value next above `q * 2 ^ e`. -/
theorem next_isF53 (v q e : Nat) (hv : IsF53 v) (hq : 2 ^ 52 ≤ q) (h : q * 2 ^ e < v) :
    (q + 1) * 2 ^ e ≤ v := by
  obtain ⟨m, t, hm, rfl⟩ := hv
  by_cases hte : e ≤ t
  · obtain ⟨d, rfl⟩ : ∃ d, t = e + d := ⟨t - e, by omega⟩
    rw [Nat.pow_add, ← Nat.mul_assoc, Nat.mul_right_comm] at h ⊢
    have hEpos : 0 < 2 ^ e := Nat.pow_pos (by omega)
    have : q < m * 2 ^ d := Nat.lt_of_mul_lt_mul_right h
    exact Nat.mul_le_mul_right _ this
  · exfalso
    obtain ⟨d, rfl⟩ : ∃ d, e = t + 1 + d := ⟨e - t - 1, by omega⟩
    have hTpos : 0 < 2 ^ t := Nat.pow_pos (by omega)
    have hDpos : 1 ≤ 2 ^ d := Nat.pow_pos (by omega)
    have h1 : m * 2 ^ t < 2 ^ 53 * 2 ^ t := Nat.mul_lt_mul_of_pos_right hm hTpos
    have h2 : 2 ^ (t + 1 + d) = 2 * 2 ^ t * 2 ^ d := by rw [Nat.pow_add, Nat.pow_succ]; ring
    rw [h2] at h
    have h3 : 2 ^ 52 * (2 * 2 ^ t * 2 ^ d) ≤ q * (2 * 2 ^ t * 2 ^ d) := Nat.mul_le_mul_right _ hq
    have h4 : 2 ^ 53 * 2 ^ t ≤ 2 ^ 52 * (2 * 2 ^ t * 2 ^ d) := by
      have : 2 ^ 53 * 2 ^ t = 2 ^ 52 * (2 * 2 ^ t * 1) := by ring
      rw [this]
      exact Nat.mul_le_mul_left _ (Nat.mul_le_mul_left _ hDpos)
    omega


/-- The rounded product of a representable `X` and a fraction below one stays
below `X`. -/
theorem round53_mul_lt_self (X a k : Nat) (hX : IsF53 X) (hX1 : 1 ≤ X) (ha : a < 2 ^ 53)
    (hk : 53 ≤ k) : round53 (X * a) < X * 2 ^ k := by
  obtain ⟨d, rfl⟩ : ∃ d, k = 53 + d := ⟨k - 53, by omega⟩
  have hE : 1 ≤ 2 ^ d := Nat.pow_pos (by omega)
  have hsum : a + 2 ^ d ≤ 2 ^ 53 * 2 ^ d := by
    have : 2 ^ d ≤ 2 ^ 53 * 2 ^ d := Nat.le_mul_of_pos_left _ (by norm_num)
    norm_num at ha ⊢
    omega
  have hPD : X * a + X * 2 ^ d ≤ X * 2 ^ (53 + d) := by
    rw [← Nat.mul_add, Nat.pow_add]
    exact Nat.mul_le_mul_left _ hsum
  have hDpos : 1 ≤ X * 2 ^ d := Nat.mul_pos hX1 hE
  have hPT : X * a < X * 2 ^ (53 + d) := by omega
  have hT : IsF53 (X * 2 ^ (53 + d)) := by
    obtain ⟨m, t, hm, rfl⟩ := hX
    exact ⟨m, t + (53 + d), hm, by ring⟩
  have hTD : X * 2 ^ (53 + d) = X * 2 ^ d * 2 ^ 53 := by rw [Nat.pow_add]; ring
  rcases round53_cases (X * a) with ⟨_, he⟩ | ⟨s, q, rem, _, hq, _, hrem, hP, ⟨he, _⟩ | ⟨he, hup⟩⟩
  · rw [he]; exact hPT
  · rw [he]; omega
  · rw [he]
    have hS : 1 ≤ 2 ^ s := Nat.pow_pos (by omega)
    have hnext := next_isF53 _ q s hT hq (by omega)
    have h52 : (2 : Nat) ^ 52 = 4503599627370496 := by norm_num
    have h53 : (2 : Nat) ^ 53 = 9007199254740992 := by norm_num
    have hqS : 4503599627370496 * 2 ^ s ≤ q * 2 ^ s :=
      Nat.mul_le_mul_right _ (by rw [← h52]; exact hq)
    rw [Nat.add_mul, Nat.one_mul] at hnext ⊢
    by_contra hcon
    have hTeq : X * 2 ^ (53 + d) = q * 2 ^ s + 2 ^ s := by omega
    rw [hTD, h53] at hTeq hPD
    omega

/-- The product of `float64(L)` and a `float64` below one, truncated, is below `L`. -/
theorem round53_mul_lt (L a k : Nat) (hL : 1 ≤ L) (ha : a < 2 ^ 53) (hk : 53 ≤ k) :
    round53 (round53 L * a) < L * 2 ^ k := by
  have hA := round53_mul_lt_self (round53 L) a k (isF53_round53 L) (round53_pos L hL) ha hk
  have hy := isF53_round53 (round53 L * a)
  have hK : 1 ≤ 2 ^ k := Nat.pow_pos (by omega)
  rcases round53_cases L with ⟨_, he⟩ | ⟨s, q, rem, _, hq, _, hrem, hP, ⟨he, _⟩ | ⟨he, hup⟩⟩
  · rw [he] at hA ⊢; exact hA
  · have hle : round53 L * 2 ^ k ≤ L * 2 ^ k := Nat.mul_le_mul_right _ (by omega)
    omega
  · by_contra hcon
    have hS : 1 ≤ 2 ^ s := Nat.pow_pos (by omega)
    have hrem1 : 1 ≤ rem := by omega
    have hLK : q * 2 ^ (s + k) < L * 2 ^ k := by
      rw [Nat.pow_add, ← Nat.mul_assoc]
      apply Nat.mul_lt_mul_of_pos_right _ hK
      omega
    have hnext := next_isF53 _ q (s + k) hy hq (by omega)
    have : (q + 1) * 2 ^ (s + k) = round53 L * 2 ^ k := by
      rw [he, Nat.pow_add, Nat.mul_assoc]
    omega


/-- The length that `handle` asks for is below the flag (and zero when the
flag is zero). -/
theorem lineAmount_le (L : Nat) (r : UnitDraw) : lineAmount L r ≤ L - 1 := by
  unfold lineAmount
  refine Nat.le_trans (Nat.mod_le _ _) ?_
  rcases Nat.eq_zero_or_pos L with h0 | hpos
  · subst h0
    have : round53 0 = 0 := by decide
    simp [this]
  · have h := round53_mul_lt L r.mant r.exp hpos (by have := r.mant_lt; norm_num; exact this)
      r.exp_ge
    have : round53 (round53 L * r.mant) / 2 ^ r.exp < L :=
      (Nat.div_lt_iff_lt_mul (Nat.pow_pos (by omega))).mpr h
    omega

theorem lineAmount_lt (L : Nat) (r : UnitDraw) : lineAmount L r < u64 :=
  Nat.mod_lt _ (by decide)

theorem canAlloc_lineAmount (maxAlloc L : Nat) (r : UnitDraw)
    (h : canAlloc maxAlloc (max L 4) = true) :
    canAlloc maxAlloc (max (lineAmount L r) 4) = true := by
  have := lineAmount_le L r
  exact canAlloc_mono maxAlloc _ _ (by omega) h

/-! ### The handler -/

theorem drainLoop_first (c : Conn) (fuel reads : Nat) :
    drainLoop c (fuel + 1) 0 none reads = ([], Drain.completed) := by
  simp [drainLoop, readbufLen]

theorem handle_of_deadline_ok (maxAlloc : Nat) (c : Conn) (rs : RandSrc) (cfg : Config)
    (fuel : Nat) (h : c.setDeadline 0 = none) :
    handle maxAlloc c rs cfg fuel =
      (stallLoop maxAlloc c rs cfg fuel ⟨0, 1, 0, 0, 0⟩).after
        [Event.logConnection, Event.setDeadline] := by
  cases fuel with
  | zero => simp [handle, h, drainLoop, stallLoop, Run.after]
  | succ f => simp [handle, h, drainLoop_first]

theorem handle_of_deadline_err (maxAlloc : Nat) (c : Conn) (rs : RandSrc) (cfg : Config)
    (fuel : Nat) (h : c.setDeadline 0 ≠ none) :
    handle maxAlloc c rs cfg fuel =
      ⟨[Event.logConnection, Event.setDeadline, Event.logDeadlineRead, Event.close],
        Status.returned⟩ := by
  simp [handle, h]

theorem wrapInt64_add (a b : Int) : wrapInt64 (wrapInt64 a + b) = wrapInt64 (a + b) := by
  unfold wrapInt64
  omega

theorem writeOK_true_iff (res : Nat × Option NetErr) :
    writeOK res = true ↔ res.2 = none ∧ res.1 ≠ 0 := by
  simp [writeOK]

theorem writeOK_false_iff (res : Nat × Option NetErr) :
    writeOK res = false ↔ res.2 ≠ none ∨ res.1 = 0 := by
  simp only [writeOK, decide_eq_false_iff_not, not_and_or, not_not]

/-- One iteration of the stall loop whose deadline reset and `Write` succeed. -/
theorem stallLoop_step_ok (maxAlloc : Nat) (c : Conn) (rs : RandSrc) (cfg : Config)
    (fuel : Nat) (s : Stall) (data : List Nat)
    (hd : c.setDeadline s.deadlines = none)
    (hdata : getRandomData maxAlloc (lineAmount cfg.lineLength (rs.floats s.floats))
      (fun i => rs.ints (s.ints + i)) = some data)
    (hw : writeOK (c.write s.writes) = true) :
    stallLoop maxAlloc c rs cfg (fuel + 1) s =
      (stallLoop maxAlloc c rs cfg fuel
        ⟨wrapInt64 (s.wt + (c.write s.writes).1), s.deadlines + 1, s.writes + 1,
          s.ints + (data.length - 3), s.floats + 2⟩).after
        [Event.setDeadline, Event.write data,
          Event.sleep (randSleep cfg.delay (rs.floats (s.floats + 1)))] := by
  have hw2 : ¬ ((c.write s.writes).2 ≠ none ∨ (c.write s.writes).1 = 0) := by
    intro h
    rw [(writeOK_false_iff _).mpr h] at hw
    exact Bool.noConfusion hw
  simp only [stallLoop, hd, hdata, if_neg hw2]

/-- The iteration of the stall loop whose `Write` fails. -/
theorem stallLoop_step_fail (maxAlloc : Nat) (c : Conn) (rs : RandSrc) (cfg : Config)
    (fuel : Nat) (s : Stall) (data : List Nat)
    (hd : c.setDeadline s.deadlines = none)
    (hdata : getRandomData maxAlloc (lineAmount cfg.lineLength (rs.floats s.floats))
      (fun i => rs.ints (s.ints + i)) = some data)
    (hw : writeOK (c.write s.writes) = false) :
    stallLoop maxAlloc c rs cfg (fuel + 1) s =
      ⟨[Event.setDeadline, Event.write data,
          Event.logClosed (wrapInt64 (s.wt + (c.write s.writes).1)), Event.close],
        Status.returned⟩ := by
  have hw2 : (c.write s.writes).2 ≠ none ∨ (c.write s.writes).1 = 0 :=
    (writeOK_false_iff _).mp hw
  simp only [stallLoop, hd, hdata, if_pos hw2]

/-- The iteration of the stall loop in which `make` panics. -/
theorem stallLoop_step_panic (maxAlloc : Nat) (c : Conn) (rs : RandSrc) (cfg : Config)
    (fuel : Nat) (s : Stall)
    (hd : c.setDeadline s.deadlines = none)
    (hdata : getRandomData maxAlloc (lineAmount cfg.lineLength (rs.floats s.floats))
      (fun i => rs.ints (s.ints + i)) = none) :
    stallLoop maxAlloc c rs cfg (fuel + 1) s =
      ⟨[Event.setDeadline, Event.close], Status.panicked⟩ := by
  simp only [stallLoop, hd, hdata]

/-- The iteration of the stall loop whose deadline reset fails. -/
theorem stallLoop_step_deadline (maxAlloc : Nat) (c : Conn) (rs : RandSrc) (cfg : Config)
    (fuel : Nat) (s : Stall) (hd : c.setDeadline s.deadlines ≠ none) :
    stallLoop maxAlloc c rs cfg (fuel + 1) s =
      ⟨[Event.setDeadline, Event.logDeadlineWrite, Event.close], Status.returned⟩ := by
  cases h : c.setDeadline s.deadlines with
  | none => exact absurd h hd
  | some e => simp only [stallLoop, h]

theorem writtenTotal_succ (c : Conn) (k : Nat) :
    writtenTotal c (k + 1) = writtenTotal c k + ((c.write k).1 : Int) := by
  simp [writtenTotal, List.range_succ]

theorem successTotal_succ (c : Conn) (k : Nat) :
    successTotal c (k + 1) =
      successTotal c k + (if writeOK (c.write k) then ((c.write k).1 : Int) else 0) := by
  simp [successTotal, List.range_succ]

theorem writtenTotal_eq_successTotal (c : Conn) (k : Nat)
    (hok : ∀ i, i < k → writeOK (c.write i) = true) : writtenTotal c k = successTotal c k := by
  induction k with
  | zero => rfl
  | succ k ih =>
    rw [writtenTotal_succ, successTotal_succ, ih (fun i hi => hok i (by omega)),
      hok k (Nat.lt_succ_self k)]
    simp

theorem writtenTotal_nonneg (c : Conn) (k : Nat) : 0 ≤ writtenTotal c k := by
  unfold writtenTotal
  apply List.sum_nonneg
  intro x hx
  obtain ⟨i, _, rfl⟩ := List.mem_map.mp hx
  exact Int.natCast_nonneg _

theorem stallRounds_cons (p : List Nat × Int) (rounds : List (List Nat × Int)) :
    stallRounds (p :: rounds) =
      [Event.setDeadline, Event.write p.1, Event.sleep p.2] ++ stallRounds rounds := by
  simp [stallRounds]

/-- The events of the successful iterations are deadline resets, writes and sleeps. -/
theorem mem_stallRounds (rounds : List (List Nat × Int)) (e : Event)
    (h : e ∈ stallRounds rounds) :
    e = Event.setDeadline ∨ (∃ d, e = Event.write d) ∨ ∃ t, e = Event.sleep t := by
  induction rounds with
  | nil => simp [stallRounds] at h
  | cons p rounds ih =>
    rw [stallRounds_cons] at h
    simp only [List.cons_append, List.nil_append, List.mem_cons] at h
    rcases h with h | h | h | h
    · exact Or.inl h
    · exact Or.inr (Or.inl ⟨_, h⟩)
    · exact Or.inr (Or.inr ⟨_, h⟩)
    · exact ih h

theorem reportedTotal_stallRounds (rounds : List (List Nat × Int)) (rest : List Event) :
    reportedTotal (stallRounds rounds ++ rest) = reportedTotal rest := by
  induction rounds with
  | nil => simp [stallRounds]
  | cons p rounds ih =>
    rw [stallRounds_cons]
    simpa [reportedTotal] using ih

/-- The shape of every run of the stall loop: successful iterations, then
nothing (still running), or a failed deadline reset, or a panic in `make`, or a
failed write. -/
theorem stallLoop_shape (maxAlloc : Nat) (c : Conn) (rs : RandSrc) (cfg : Config)
    (fuel : Nat) :
    ∀ (s : Stall) (t : Int), s.wt = wrapInt64 t →
      ∃ (rounds : List (List Nat × Int)) (tail : List Event),
        (stallLoop maxAlloc c rs cfg fuel s).trace = stallRounds rounds ++ tail ∧
        (∀ i, i < rounds.length →
          c.setDeadline (s.deadlines + i) = none ∧ writeOK (c.write (s.writes + i)) = true) ∧
        StallEnd maxAlloc c cfg fuel s t rounds.length tail
          (stallLoop maxAlloc c rs cfg fuel s).status := by
  induction fuel with
  | zero =>
    intro s t _
    exact ⟨[], [], by simp [stallLoop, stallRounds], fun i hi => absurd hi (by simp),
      Or.inl ⟨rfl, rfl, rfl⟩⟩
  | succ fuel ih =>
    intro s t hwt
    by_cases hd : c.setDeadline s.deadlines = none
    · cases hdata : getRandomData maxAlloc (lineAmount cfg.lineLength (rs.floats s.floats))
          (fun i => rs.ints (s.ints + i)) with
      | none =>
        rw [stallLoop_step_panic maxAlloc c rs cfg fuel s hd hdata]
        refine ⟨[], _, (List.nil_append _).symm, fun i hi => absurd hi (by simp),
          Or.inr (Or.inr (Or.inl ⟨rfl, rfl, ?_, Nat.succ_pos _⟩))⟩
        cases hca : canAlloc maxAlloc (max cfg.lineLength 4) with
        | false => rfl
        | true =>
          rw [getRandomData_eq maxAlloc _ _ (canAlloc_lineAmount maxAlloc _ _ hca)] at hdata
          exact Option.noConfusion hdata
      | some data =>
        cases hw : writeOK (c.write s.writes) with
        | true =>
          rw [stallLoop_step_ok maxAlloc c rs cfg fuel s data hd hdata hw]
          obtain ⟨rounds, tail, htr, hidx, hend⟩ := ih
            ⟨wrapInt64 (s.wt + (c.write s.writes).1), s.deadlines + 1, s.writes + 1,
              s.ints + (data.length - 3), s.floats + 2⟩ (t + (c.write s.writes).1)
            (by simp only [hwt, wrapInt64_add])
          refine ⟨(data, randSleep cfg.delay (rs.floats (s.floats + 1))) :: rounds, tail,
            ?_, ?_, ?_⟩
          · simp only [Run.after, htr, stallRounds_cons, List.append_assoc]
          · intro i hi
            cases i with
            | zero => exact ⟨hd, hw⟩
            | succ j =>
              have := hidx j (by simpa using hi)
              simp only at this
              rw [show s.deadlines + (j + 1) = s.deadlines + 1 + j by omega,
                show s.writes + (j + 1) = s.writes + 1 + j by omega]
              exact this
          · simp only [Run.after, List.length_cons]
            rcases hend with ⟨h1, h2, h3⟩ | ⟨h1, h2, h3, h4⟩ | ⟨h1, h2, h3, h4⟩ |
              ⟨d, h1, h2, h3, h4⟩
            · exact Or.inl ⟨h1, h2, by omega⟩
            · refine Or.inr (Or.inl ⟨h1, h2, ?_, by omega⟩)
              simp only at h3
              rw [show s.deadlines + (rounds.length + 1) = s.deadlines + 1 + rounds.length
                by omega]
              exact h3
            · exact Or.inr (Or.inr (Or.inl ⟨h1, h2, h3, by omega⟩))
            · refine Or.inr (Or.inr (Or.inr ⟨d, ?_, h2, ?_, by omega⟩))
              · rw [h1]
                simp only
                have e1 : s.writes + 1 + rounds.length + 1 = s.writes + (rounds.length + 1) + 1 := by
                  omega
                have e2 : t + ((c.write s.writes).1 : Int) +
                    (writtenTotal c (s.writes + (rounds.length + 1) + 1) -
                      (writtenTotal c s.writes + ((c.write s.writes).1 : Int))) =
                    t + (writtenTotal c (s.writes + (rounds.length + 1) + 1) -
                      writtenTotal c s.writes) := by omega
                rw [e1, writtenTotal_succ c s.writes, e2]
              · simp only at h3
                rw [show s.writes + (rounds.length + 1) = s.writes + 1 + rounds.length by omega]
                exact h3
        | false =>
          rw [stallLoop_step_fail maxAlloc c rs cfg fuel s data hd hdata hw]
          refine ⟨[], _, (List.nil_append _).symm, fun i hi => absurd hi (by simp),
            Or.inr (Or.inr (Or.inr ⟨data, ?_, rfl, by simpa using hw, Nat.succ_pos _⟩))⟩
          have e2 : t + (writtenTotal c s.writes + ((c.write s.writes).1 : Int) -
              writtenTotal c s.writes) = t + ((c.write s.writes).1 : Int) := by omega
          simp only [List.length_nil, Nat.add_zero, writtenTotal_succ, hwt, wrapInt64_add, e2]
    · rw [stallLoop_step_deadline maxAlloc c rs cfg fuel s hd]
      exact ⟨[], _, (List.nil_append _).symm, fun i hi => absurd hi (by simp),
        Or.inr (Or.inl ⟨rfl, rfl, by simpa using hd, Nat.succ_pos _⟩)⟩

/-- The shape of every run of `handle`. -/
theorem handle_shape (maxAlloc : Nat) (c : Conn) (rs : RandSrc) (cfg : Config) (fuel : Nat) :
    ∃ (rounds : List (List Nat × Int)) (tail : List Event),
      (handle maxAlloc c rs cfg fuel).trace =
        [Event.logConnection, Event.setDeadline] ++ stallRounds rounds ++ tail ∧
      (∀ i, i < rounds.length →
        c.setDeadline (1 + i) = none ∧ writeOK (c.write i) = true) ∧
      ((tail = [Event.logDeadlineRead, Event.close] ∧ rounds = [] ∧
          (handle maxAlloc c rs cfg fuel).status = Status.returned ∧ c.setDeadline 0 ≠ none) ∨
       (c.setDeadline 0 = none ∧
          StallEnd maxAlloc c cfg fuel ⟨0, 1, 0, 0, 0⟩ 0 rounds.length tail
            (handle maxAlloc c rs cfg fuel).status)) := by
  by_cases hd : c.setDeadline 0 = none
  · rw [handle_of_deadline_ok maxAlloc c rs cfg fuel hd]
    obtain ⟨rounds, tail, htr, hidx, hend⟩ :=
      stallLoop_shape maxAlloc c rs cfg fuel ⟨0, 1, 0, 0, 0⟩ 0 (by decide)
    refine ⟨rounds, tail, by simp only [Run.after, htr, List.append_assoc], ?_,
      Or.inr ⟨hd, hend⟩⟩
    intro i hi
    have := hidx i hi
    simpa using this
  · rw [handle_of_deadline_err maxAlloc c rs cfg fuel hd]
    exact ⟨[], _, by simp [stallRounds], fun i hi => absurd hi (by simp),
      Or.inl ⟨rfl, rfl, rfl, hd⟩⟩

/-- The run of `handle` on a connection whose deadline resets succeed, whose
payloads can be allocated and whose first failing `Write` is the one of index
`k`. -/
theorem handle_first_failure (maxAlloc : Nat) (c : Conn) (rs : RandSrc) (cfg : Config)
    (k fuel : Nat) (halloc : canAlloc maxAlloc (max cfg.lineLength 4) = true)
    (hd : ∀ j, j ≤ k + 1 → c.setDeadline j = none)
    (hok : ∀ i, i < k → writeOK (c.write i) = true)
    (hfail : writeOK (c.write k) = false) (hfuel : k < fuel) :
    ∃ (rounds : List (List Nat × Int)) (data : List Nat), rounds.length = k ∧
      handle maxAlloc c rs cfg fuel =
        ⟨[Event.logConnection, Event.setDeadline] ++ stallRounds rounds ++
          [Event.setDeadline, Event.write data,
            Event.logClosed (wrapInt64 (writtenTotal c (k + 1))), Event.close],
          Status.returned⟩ := by
  obtain ⟨rounds, tail, htr, hidx, hcase⟩ := handle_shape maxAlloc c rs cfg fuel
  have hlen : rounds.length ≤ k := by
    by_contra hgt
    have := (hidx k (by omega)).2
    rw [hfail] at this
    exact Bool.noConfusion this
  rcases hcase with ⟨_, _, _, h0⟩ | ⟨_, hend⟩
  · exact absurd (hd 0 (by omega)) h0
  · rcases hend with ⟨_, _, h3⟩ | ⟨_, _, h3, _⟩ | ⟨_, _, h3, _⟩ | ⟨d, h1, h2, h3, _⟩
    · omega
    · exact absurd (hd (1 + rounds.length) (by omega)) h3
    · rw [halloc] at h3; exact Bool.noConfusion h3
    · simp only [Nat.zero_add] at h1 h3
      have hk : rounds.length = k := by
        by_contra hne
        have := hok rounds.length (by omega)
        rw [h3] at this
        exact Bool.noConfusion this
      refine ⟨rounds, d, hk, ?_⟩
      have hW0 : writtenTotal c 0 = 0 := rfl
      rw [hk, hW0] at h1
      simp only [Int.sub_zero, Int.zero_add] at h1
      have hrun : handle maxAlloc c rs cfg fuel =
          ⟨(handle maxAlloc c rs cfg fuel).trace, (handle maxAlloc c rs cfg fuel).status⟩ := rfl
      rw [hrun, htr, h1, h2]

/-- The run of `handle` while every deadline reset and every `Write` succeeds
and the payloads can be allocated. -/
theorem handle_all_ok (maxAlloc : Nat) (c : Conn) (rs : RandSrc) (cfg : Config) (fuel : Nat)
    (halloc : canAlloc maxAlloc (max cfg.lineLength 4) = true)
    (hd : ∀ j, j ≤ fuel → c.setDeadline j = none)
    (hok : ∀ i, i < fuel → writeOK (c.write i) = true) :
    ∃ rounds : List (List Nat × Int), rounds.length = fuel ∧
      handle maxAlloc c rs cfg fuel =
        ⟨[Event.logConnection, Event.setDeadline] ++ stallRounds rounds, Status.running⟩ := by
  obtain ⟨rounds, tail, htr, hidx, hcase⟩ := handle_shape maxAlloc c rs cfg fuel
  have hrun : handle maxAlloc c rs cfg fuel =
      ⟨(handle maxAlloc c rs cfg fuel).trace, (handle maxAlloc c rs cfg fuel).status⟩ := rfl
  rcases hcase with ⟨_, _, _, h0⟩ | ⟨_, hend⟩
  · exact absurd (hd 0 (by omega)) h0
  · rcases hend with ⟨h1, h2, h3⟩ | ⟨_, _, h3, hlt⟩ | ⟨_, _, h3, _⟩ | ⟨d, _, _, h3, hlt⟩
    · refine ⟨rounds, h3, ?_⟩
      rw [hrun, htr, h1, h2, List.append_nil]
    · exact absurd (hd (1 + rounds.length) (by omega)) h3
    · rw [halloc] at h3; exact Bool.noConfusion h3
    · simp only [Nat.zero_add] at h3
      have := hok rounds.length hlt
      rw [h3] at this
      exact Bool.noConfusion this

/-! ### Adler-32 -/

theorem adlerStep_pair (s1 s2 b : Nat) (h1 : s1 < 65521) :
    adlerStep (s2 * 65536 + s1) b =
      ((s2 + (s1 + b) % 65521) % 65521) * 65536 + (s1 + b) % 65521 := by
  unfold adlerStep adlerMod
  have e1 : (s2 * 65536 + s1) % 65536 = s1 := by omega
  have e2 : (s2 * 65536 + s1) / 65536 = s2 := by omega
  simp only [e1, e2]

theorem sum_map_const_add (x : Nat) (g : Nat → Nat) (l : List Nat) :
    (l.map fun i => x + g i).sum = l.length * x + (l.map g).sum := by
  induction l with
  | nil => simp
  | cons a l ih => simp [ih]; ring

/-- The digest after the bytes `p`, from the state `s1`, `s2`. -/
theorem adlerUpdate_pair (p : List Nat) :
    ∀ s1 s2 : Nat, s1 < 65521 → s2 < 65521 →
      adlerUpdate (s2 * 65536 + s1) p =
        ((s2 + ((List.range p.length).map fun i => s1 + (p.take (i + 1)).sum).sum) % 65521)
          * 65536 + (s1 + p.sum) % 65521 := by
  induction p with
  | nil =>
    intro s1 s2 h1 h2
    simp [adlerUpdate, Nat.mod_eq_of_lt h1, Nat.mod_eq_of_lt h2]
  | cons b p ih =>
    intro s1 s2 h1 h2
    have hstep : adlerUpdate (s2 * 65536 + s1) (b :: p) =
        adlerUpdate (adlerStep (s2 * 65536 + s1) b) p := by
      unfold adlerUpdate
      rw [List.foldl_cons]
    rw [hstep, adlerStep_pair s1 s2 b h1,
      ih ((s1 + b) % 65521) ((s2 + (s1 + b) % 65521) % 65521)
        (Nat.mod_lt _ (by omega)) (Nat.mod_lt _ (by omega))]
    have hA : ((s1 + b) % 65521 + p.sum) % 65521 = (s1 + (b :: p).sum) % 65521 := by
      simp only [List.sum_cons]; omega
    have hm : Nat.ModEq 65521 ((s1 + b) % 65521) (s1 + b) := Nat.mod_modEq _ _
    have hB : ((s2 + (s1 + b) % 65521) % 65521 +
          ((List.range p.length).map fun i => (s1 + b) % 65521 + (p.take (i + 1)).sum).sum)
            % 65521 =
        (s2 + ((List.range (b :: p).length).map
          fun i => s1 + ((b :: p).take (i + 1)).sum).sum) % 65521 := by
      rw [List.length_cons, List.range_succ_eq_map]
      simp only [List.map_cons, List.map_map, List.sum_cons, Function.comp_def,
        List.take_succ_cons, List.take_zero, List.sum_nil, Nat.add_zero]
      have e : (fun i => s1 + (b + (p.take (i + 1)).sum)) =
          (fun i => (s1 + b) + (p.take (i + 1)).sum) := by
        funext i; omega
      rw [e, sum_map_const_add, sum_map_const_add]
      show Nat.ModEq 65521 _ _
      have h3 : Nat.ModEq 65521 ((s2 + (s1 + b) % 65521) % 65521) (s2 + (s1 + b)) :=
        (Nat.mod_modEq _ _).trans (Nat.ModEq.add_left s2 hm)
      have h4 := (Nat.ModEq.mul_left (List.range p.length).length hm).add_right
        ((List.range p.length).map fun i => (p.take (i + 1)).sum).sum
      have h5 := h3.add h4
      refine h5.trans ?_
      rw [Nat.add_assoc s2]
    rw [hA, hB]

/-- The checksum of the library is the checksum of RFC 1950. -/
theorem adlerSum32_update_eq_spec (p : List Nat) :
    adlerSum32 (adlerUpdate 1 p) = adler32Spec p := by
  have h := adlerUpdate_pair p 1 0 (by decide) (by decide)
  simp only [Nat.zero_mul, Nat.zero_add] at h
  unfold adlerSum32 adler32Spec
  rw [h]
  have ha : (1 + p.sum) % 65521 < 65521 := Nat.mod_lt _ (by omega)
  have hb : (((List.range p.length).map fun i => 1 + (p.take (i + 1)).sum).sum) % 65521
      < 65521 := Nat.mod_lt _ (by omega)
  simp only
  omega

/-- Writing two pieces one after the other is writing their concatenation. -/
theorem adlerWrite_append (d : Nat) (p q : List Nat) :
    adlerWrite (adlerWrite d p) q = adlerWrite d (p ++ q) := by
  simp [adlerWrite, adlerUpdate, List.foldl_append]

/-! ### The alphabet -/

theorem symbolOf_mem (raw : Nat) : symbolOf raw ∈ alnum :=
  List.getElem?_mem (alnum_get_symbolOf raw)

theorem alnum_isSymbol : ∀ b ∈ alnum, isSymbol b = true := by decide

theorem isSymbol_alnum (b : Nat) (h : isSymbol b = true) : b ∈ alnum := by
  have hb : b < 123 := by
    simp only [isSymbol, Bool.or_eq_true, Bool.and_eq_true, decide_eq_true_eq] at h
    omega
  have hall : ∀ n, n < 123 → isSymbol n = true → n ∈ alnum := by decide
  exact hall b hb h

theorem payloadOf_length (amount : Nat) (draws : Nat → Nat) :
    (payloadOf amount draws).length = max amount 4 := by
  simp [payloadOf]

/-! ### Formatting -/

/-- The digit loop writes the digits to the base, the most significant first. -/
theorem fmtLoop_eq (b : Nat) (hb : 2 ≤ b) (fuel : Nat) :
    ∀ (u : Nat) (acc : List Nat), 0 < u → u ≤ fuel →
      fmtLoop b fuel u acc = (Nat.digits b u).reverse.map digitByte ++ acc := by
  induction fuel with
  | zero => intro u acc h0 h1; omega
  | succ fuel ih =>
    intro u acc h0 h1
    by_cases hbu : b ≤ u
    · have hdiv0 : 0 < u / b := Nat.div_pos hbu (by omega)
      have hdiv1 : u / b ≤ fuel := by
        have : u / b < u := Nat.div_lt_self h0 (by omega)
        omega
      simp only [fmtLoop, if_pos hbu]
      rw [ih (u / b) _ hdiv0 hdiv1, Nat.digits_def' (by omega) h0]
      simp
    · simp only [fmtLoop, if_neg hbu]
      rw [Nat.digits_of_lt b u (by omega) (by omega)]
      rfl

theorem digitByte_eq_hexDigitChar : ∀ d, d < 16 → digitByte d = hexDigitChar d := by decide

theorem digitByte_eq_decimal : ∀ d, d < 10 → digitByte d = 48 + d := by decide

theorem fmtHex_eq (v : Nat) : fmtHex v = hexRendering v := by
  unfold fmtHex hexRendering
  by_cases h0 : v = 0
  · subst h0; rfl
  · rw [if_neg h0, fmtLoop_eq 16 (by omega) v v [] (by omega) (Nat.le_refl v), List.append_nil]
    apply List.map_congr_left
    intro d hd
    exact digitByte_eq_hexDigitChar d (Nat.digits_lt_base (by omega) (List.mem_reverse.mp hd))

theorem fmtLoop_decimal (n : Nat) :
    fmtLoop 10 n n [] = if n = 0 then [48] else (Nat.digits 10 n).reverse.map fun d => 48 + d := by
  by_cases h0 : n = 0
  · subst h0; rfl
  · rw [if_neg h0, fmtLoop_eq 10 (by omega) n n [] (by omega) (Nat.le_refl n), List.append_nil]
    apply List.map_congr_left
    intro d hd
    exact digitByte_eq_decimal d (Nat.digits_lt_base (by omega) (List.mem_reverse.mp hd))

theorem fmtDecimal_eq (t : Int) : fmtDecimal t = decimalRendering t := by
  unfold fmtDecimal decimalRendering
  rw [fmtLoop_decimal]
  by_cases h0 : t = 0
  · subst h0; rfl
  · have hz : t.natAbs ≠ 0 := by simpa using h0
    by_cases h : t < 0 <;> simp [h, h0, hz]

/-! ### The alphabet and the payload -/

theorem newline_only_last (pre : List Nat) (hpre : ∀ b ∈ pre, isSymbol b = true) (i : Nat) :
    (pre ++ [61, 61, 10])[i]? = some 10 ↔ i = pre.length + 2 := by
  by_cases hi : i < pre.length
  · rw [List.getElem?_append_left hi, List.getElem?_eq_getElem hi]
    have hs := hpre pre[i] (List.getElem_mem hi)
    constructor
    · intro h
      rw [Option.some.inj h] at hs
      exact absurd hs (by decide)
    · intro h
      omega
  · obtain ⟨j, rfl⟩ : ∃ j, i = pre.length + j := ⟨i - pre.length, by omega⟩
    rw [List.getElem?_append_right (by omega)]
    simp only [Nat.add_sub_cancel_left]
    match j with
    | 0 => simp
    | 1 => simp
    | 2 => simp
    | j + 3 => simp

theorem canAlloc_iff (maxAlloc n : Nat) :
    canAlloc maxAlloc n = true ↔ n < 9223372036854775808 ∧ n ≤ maxAlloc := by
  simp [canAlloc]

theorem getRandomData_some (maxAlloc amount : Nat) (draws : Nat → Nat) (buf : List Nat)
    (h : getRandomData maxAlloc amount draws = some buf) :
    canAlloc maxAlloc (max amount 4) = true ∧ buf = payloadOf amount draws := by
  cases hc : canAlloc maxAlloc (max amount 4) with
  | false =>
    rw [getRandomData_none maxAlloc amount draws hc] at h
    exact Option.noConfusion h
  | true =>
    rw [getRandomData_eq maxAlloc amount draws hc] at h
    exact ⟨rfl, (Option.some.inj h).symm⟩

/-! ### Examples -/

/-- The verb `%x` on `0x3aaf04ac` gives the bytes of "3aaf04ac". -/
theorem fmtHex_example :
    fmtHex 984548524 = "3aaf04ac".toList.map Char.toNat := by decide

/-- The verb `%d` on `1700000000` and on `-12`. -/
theorem fmtDecimal_example :
    fmtDecimal 1700000000 = "1700000000".toList.map Char.toNat ∧
      fmtDecimal (-12) = "-12".toList.map Char.toNat := by decide

/-- The checksum of the bytes of "Wikipedia" is `0x11e60398`. -/
theorem adlerSum32_example :
    adlerSum32 (adlerUpdate 1 ("Wikipedia".toList.map Char.toNat)) = 300286872 := by decide

/-- With the flag `-l 1400` and the draw `958623349254577 / 2 ^ 53` the exact
product is below 149 and the rounded product is 149. -/
theorem lineAmount_example :
    lineAmount 1400 ⟨958623349254577, 53, by decide, by decide, by decide⟩ = 149 ∧
      1400 * 958623349254577 / 2 ^ 53 = 148 := by decide

/-! ## The properties -/

/-- C1, as stated, fails: a request of `2 ^ 63` bytes does not fit an `int`,
`make` panics and `getRandomData` returns no byte sequence. -/
theorem getRandomData_panics_beyond_int :
    getRandomData linuxMaxAlloc 9223372036854775808 (fun _ => 0) = none := by decide

/-- C1, amended: for every requested length `amount` such that `make` can
allocate `max amount 4` bytes (the length fits an `int` and is within the
limit of the run-time system) and every outcome of the random source,
`getRandomData` returns a byte sequence of length exactly `max amount 4`:
exactly 4 when `amount < 4`, exactly `amount` when `4 ≤ amount`. -/
theorem getRandomData_length (maxAlloc amount : Nat) (draws : Nat → Nat)
    (hint : max amount 4 < 9223372036854775808) (hlim : max amount 4 ≤ maxAlloc) :
    ∃ buf, getRandomData maxAlloc amount draws = some buf ∧ buf.length = max amount 4 ∧
      (amount < 4 → buf.length = 4) ∧ (4 ≤ amount → buf.length = amount) := by
  refine ⟨payloadOf amount draws,
    getRandomData_eq maxAlloc amount draws ((canAlloc_iff _ _).mpr ⟨hint, hlim⟩),
    payloadOf_length _ _, ?_, ?_⟩
  · intro h4; rw [payloadOf_length]; omega
  · intro h4; rw [payloadOf_length]; omega

/-- An instance: a request of 7 bytes. -/
theorem getRandomData_length_witness :
    max 7 4 < 9223372036854775808 ∧ max 7 4 ≤ linuxMaxAlloc ∧
    ∃ buf, getRandomData linuxMaxAlloc 7 (fun i => 70 + i) = some buf ∧
      buf.length = max 7 4 ∧ (7 < 4 → buf.length = 4) ∧ (4 ≤ 7 → buf.length = 7) :=
  ⟨by decide, by decide,
    getRandomData_length linuxMaxAlloc 7 (fun i => 70 + i) (by decide) (by decide)⟩

/-- C2, as stated, fails: for the request of `2 ^ 64 - 1` bytes `make` panics
and there is no output, so no output of the described form. -/
theorem getRandomData_no_output_beyond_int :
    getRandomData linuxMaxAlloc 18446744073709551615 (fun i => i) = none ∧
    ¬ ∃ pre : List Nat,
      getRandomData linuxMaxAlloc 18446744073709551615 (fun i => i) = some (pre ++ [61, 61, 10]) := by
  have h : getRandomData linuxMaxAlloc 18446744073709551615 (fun i => i) = none := by decide
  refine ⟨h, ?_⟩
  rintro ⟨pre, hpre⟩
  rw [h] at hpre
  exact Option.noConfusion hpre

/-- C2, amended: for every requested length such that `make` can allocate the
buffer and every outcome of the random source, the output of `getRandomData`
is a prefix followed by the three bytes `=`, `=` and newline (61, 61, 10); the
prefix is not empty and all its bytes are in `alnum`, which holds 64 distinct
bytes, exactly the symbols `a`-`z`, `A`-`Z`, `0`-`9`, `+`, `/`; no index is out
of range (the result is `some`), and the only newline of the payload is its
last byte. -/
theorem getRandomData_shape (maxAlloc amount : Nat) (draws : Nat → Nat)
    (hint : max amount 4 < 9223372036854775808) (hlim : max amount 4 ≤ maxAlloc) :
    ∃ pre : List Nat, getRandomData maxAlloc amount draws = some (pre ++ [61, 61, 10]) ∧
      1 ≤ pre.length ∧ (∀ b ∈ pre, b ∈ alnum) ∧
      alnum.length = 64 ∧ alnum.Nodup ∧ (∀ b, b ∈ alnum ↔ isSymbol b = true) ∧
      (∀ i, (pre ++ [61, 61, 10])[i]? = some 10 ↔ i = pre.length + 2) := by
  have hmem : ∀ b ∈ (List.range (max amount 4 - 3)).map (fun j => symbolOf (draws j)),
      b ∈ alnum := by
    intro b hb
    obtain ⟨j, _, rfl⟩ := List.mem_map.mp hb
    exact symbolOf_mem _
  refine ⟨(List.range (max amount 4 - 3)).map (fun j => symbolOf (draws j)),
    getRandomData_eq maxAlloc amount draws ((canAlloc_iff _ _).mpr ⟨hint, hlim⟩), ?_, hmem,
    by decide, by decide, fun b => ⟨alnum_isSymbol b, isSymbol_alnum b⟩, ?_⟩
  · simp only [List.length_map, List.length_range]; omega
  · exact newline_only_last _ (fun b hb => alnum_isSymbol b (hmem b hb))

/-- An instance: a request of 2 bytes, clamped to 4. -/
theorem getRandomData_shape_witness :
    max 2 4 < 9223372036854775808 ∧ max 2 4 ≤ linuxMaxAlloc ∧
    ∃ pre : List Nat, getRandomData linuxMaxAlloc 2 (fun i => i) = some (pre ++ [61, 61, 10]) ∧
      1 ≤ pre.length ∧ (∀ b ∈ pre, b ∈ alnum) ∧
      alnum.length = 64 ∧ alnum.Nodup ∧ (∀ b, b ∈ alnum ↔ isSymbol b = true) ∧
      (∀ i, (pre ++ [61, 61, 10])[i]? = some 10 ↔ i = pre.length + 2) :=
  ⟨by decide, by decide,
    getRandomData_shape linuxMaxAlloc 2 (fun i => i) (by decide) (by decide)⟩

/-- C8, as stated, fails: with the maximum line length 4 and the draw 0 the
stall iteration asks for 0 bytes and writes a payload of 4 bytes, which is not
below 4. -/
theorem payload_length_not_below_lineLength :
    ∃ buf, getRandomData linuxMaxAlloc (lineAmount 4 zeroDraw) (fun _ => 0) = some buf ∧
      ¬ buf.length < 4 :=
  ⟨[97, 61, 61, 10], by decide, by decide⟩

/-- C8, amended: for every maximum line length `L` of at least 4 and every
draw `r` (a `float64` at least 0 and below 1), the payload that a stall
iteration writes has length at least 4 and at most `max (L - 1) 4`: it is not
above `L`, and below `L` whenever `5 ≤ L`. The payload is written whenever
`make` can allocate `L` bytes. -/
theorem payload_length_bounds (maxAlloc L : Nat) (r : UnitDraw) (draws : Nat → Nat)
    (hL : 4 ≤ L) :
    (∀ buf, getRandomData maxAlloc (lineAmount L r) draws = some buf →
      4 ≤ buf.length ∧ buf.length ≤ max (L - 1) 4 ∧ buf.length ≤ L ∧
        (5 ≤ L → buf.length < L)) ∧
    (L < 9223372036854775808 → L ≤ maxAlloc →
      ∃ buf, getRandomData maxAlloc (lineAmount L r) draws = some buf) := by
  have hle := lineAmount_le L r
  constructor
  · intro buf hbuf
    obtain ⟨_, rfl⟩ := getRandomData_some maxAlloc _ draws buf hbuf
    rw [payloadOf_length]
    refine ⟨by omega, by omega, by omega, fun h5 => by omega⟩
  · intro hint hlim
    exact ⟨_, getRandomData_eq maxAlloc _ draws
      ((canAlloc_iff _ _).mpr ⟨by omega, by omega⟩)⟩

/-- An instance: the default line length 1400 and the draw one half. -/
theorem payload_length_bounds_witness :
    4 ≤ 1400 ∧
    ∃ buf, getRandomData linuxMaxAlloc (lineAmount 1400 halfDraw) (fun i => i) = some buf ∧
      4 ≤ buf.length ∧ buf.length ≤ max (1400 - 1) 4 ∧ buf.length ≤ 1400 ∧
        (5 ≤ 1400 → buf.length < 1400) :=
  ⟨by decide,
    ((payload_length_bounds linuxMaxAlloc 1400 halfDraw (fun i => i) (by decide)).2
      (by decide) (by decide)).elim fun buf hbuf =>
        ⟨buf, hbuf,
          (payload_length_bounds linuxMaxAlloc 1400 halfDraw (fun i => i) (by decide)).1
            buf hbuf⟩⟩

/-- C9: for every peer address string `addr` (its bytes) and every Unix
timestamp `now`, `makeConnID` is the lowercase hexadecimal rendering of the
Adler-32 checksum (RFC 1950) of the bytes of `addr` followed by the decimal
digits of `now`; the digest to which the two pieces were written one after
the other holds the checksum of their concatenation. Being a function of
`addr` and `now`, `makeConnID` gives equal results on equal inputs. -/
theorem makeConnID_eq_hex_adler32 (addr : List Nat) (now : Int) :
    makeConnID addr now = hexRendering (adler32Spec (addr ++ decimalRendering now)) ∧
      adlerSum32 (adlerWrite (adlerWrite adlerNew addr) (fmtDecimal now)) =
        adler32Spec (addr ++ decimalRendering now) := by
  have h : adlerSum32 (adlerWrite (adlerWrite adlerNew addr) (fmtDecimal now)) =
      adler32Spec (addr ++ decimalRendering now) := by
    rw [adlerWrite_append, fmtDecimal_eq]
    exact adlerSum32_update_eq_spec _
  refine ⟨?_, h⟩
  unfold makeConnID
  simp only [h, fmtHex_eq]

/-- C3: on a connection whose deadline resets keep succeeding, every run of
`handle` consists of iterations whose `Write` succeeded, each followed by its
sleep and by the deadline reset of the next iteration, and then of nothing
more (the run is still going), or of the deadline reset and the panic of
`make`, or of the deadline reset and the first `Write` that returns an error
or a count of zero, after which come only the log line and `Close`: no further
`Write`, deadline reset or sleep. If the payloads can be allocated, the failing
`Write` of index `k` is reached and `handle` returns after it, and while the
writes succeed the loop goes on. -/
theorem stall_returns_at_first_failed_write (maxAlloc : Nat) (c : Conn) (rs : RandSrc)
    (cfg : Config) (fuel : Nat) (hd : ∀ j, c.setDeadline j = none) :
    (∃ (rounds : List (List Nat × Int)) (tail : List Event),
      (handle maxAlloc c rs cfg fuel).trace =
        [Event.logConnection, Event.setDeadline] ++ stallRounds rounds ++ tail ∧
      (∀ i, i < rounds.length → (c.write i).2 = none ∧ (c.write i).1 ≠ 0) ∧
      ((tail = [] ∧ (handle maxAlloc c rs cfg fuel).status = Status.running ∧
          rounds.length = fuel) ∨
       (tail = [Event.setDeadline, Event.close] ∧
          (handle maxAlloc c rs cfg fuel).status = Status.panicked ∧
          ¬ (max cfg.lineLength 4 < 9223372036854775808 ∧ max cfg.lineLength 4 ≤ maxAlloc)) ∨
       (∃ (d : List Nat) (wt : Int),
          tail = [Event.setDeadline, Event.write d, Event.logClosed wt, Event.close] ∧
          (handle maxAlloc c rs cfg fuel).status = Status.returned ∧
          ((c.write rounds.length).2 ≠ none ∨ (c.write rounds.length).1 = 0)))) ∧
    (∀ k, max cfg.lineLength 4 < 9223372036854775808 → max cfg.lineLength 4 ≤ maxAlloc →
      (∀ i, i < k → (c.write i).2 = none ∧ (c.write i).1 ≠ 0) →
      ((c.write k).2 ≠ none ∨ (c.write k).1 = 0) → k < fuel →
      ∃ (rounds : List (List Nat × Int)) (data : List Nat) (wt : Int), rounds.length = k ∧
        handle maxAlloc c rs cfg fuel =
          ⟨[Event.logConnection, Event.setDeadline] ++ stallRounds rounds ++
            [Event.setDeadline, Event.write data, Event.logClosed wt, Event.close],
            Status.returned⟩) ∧
    (max cfg.lineLength 4 < 9223372036854775808 → max cfg.lineLength 4 ≤ maxAlloc →
      (∀ i, i < fuel → (c.write i).2 = none ∧ (c.write i).1 ≠ 0) →
      ∃ rounds : List (List Nat × Int), rounds.length = fuel ∧
        handle maxAlloc c rs cfg fuel =
          ⟨[Event.logConnection, Event.setDeadline] ++ stallRounds rounds, Status.running⟩) := by
  refine ⟨?_, ?_, ?_⟩
  · obtain ⟨rounds, tail, htr, hidx, hcase⟩ := handle_shape maxAlloc c rs cfg fuel
    refine ⟨rounds, tail, htr, fun i hi => (writeOK_true_iff _).mp (hidx i hi).2, ?_⟩
    rcases hcase with ⟨_, _, _, h0⟩ | ⟨_, hend⟩
    · exact absurd (hd 0) h0
    · rcases hend with ⟨h1, h2, h3⟩ | ⟨_, _, h3, _⟩ | ⟨h1, h2, h3, _⟩ | ⟨d, h1, h2, h3, _⟩
      · exact Or.inl ⟨h1, h2, h3⟩
      · exact absurd (hd _) h3
      · refine Or.inr (Or.inl ⟨h1, h2, fun hc => ?_⟩)
        rw [(canAlloc_iff _ _).mpr hc] at h3
        exact Bool.noConfusion h3
      · simp only [Nat.zero_add] at h3
        exact Or.inr (Or.inr ⟨d, _, h1, h2, (writeOK_false_iff _).mp h3⟩)
  · intro k hint hlim hok hfail hfuel
    obtain ⟨rounds, data, hlen, hrun⟩ :=
      handle_first_failure maxAlloc c rs cfg k fuel ((canAlloc_iff _ _).mpr ⟨hint, hlim⟩)
        (fun j _ => hd j) (fun i hi => (writeOK_true_iff _).mpr (hok i hi))
        ((writeOK_false_iff _).mpr hfail) hfuel
    exact ⟨rounds, data, _, hlen, hrun⟩
  · intro hint hlim hok
    exact handle_all_ok maxAlloc c rs cfg fuel ((canAlloc_iff _ _).mpr ⟨hint, hlim⟩)
      (fun j _ => hd j) (fun i hi => (writeOK_true_iff _).mpr (hok i hi))

/-- An instance: the peer that takes one payload; the second `Write` fails. -/
theorem stall_returns_at_first_failed_write_witness :
    (∀ j, oneWritePeer.setDeadline j = none) ∧
    ∃ (rounds : List (List Nat × Int)) (data : List Nat) (wt : Int), rounds.length = 1 ∧
      handle linuxMaxAlloc oneWritePeer zeroRand defaultConfig 2 =
        ⟨[Event.logConnection, Event.setDeadline] ++ stallRounds rounds ++
          [Event.setDeadline, Event.write data, Event.logClosed wt, Event.close],
          Status.returned⟩ :=
  ⟨fun _ => rfl,
    (stall_returns_at_first_failed_write linuxMaxAlloc oneWritePeer zeroRand defaultConfig 2
      (fun _ => rfl)).2.1 1 (by decide) (by decide) (by decide) (by decide) (by decide)⟩

/-- C4 does not hold of the code: no run of `handle` ever calls `Read`. The
drain loop starts with `n = 0` and leaves at `if n == 0 { break }` before its
post statement, the only call of `Read`, has run. For the peer that never
sends data the first event after the deadline reset of the drain phase is the
deadline reset of the stall phase, followed by the first `Write`. -/
theorem handle_never_reads (maxAlloc : Nat) (c : Conn) (rs : RandSrc) (cfg : Config)
    (fuel : Nat) :
    (∀ e ∈ (handle maxAlloc c rs cfg fuel).trace, e.isRead = false) ∧
    handle linuxMaxAlloc silentPeer zeroRand defaultConfig 1 =
      ⟨[Event.logConnection, Event.setDeadline, Event.setDeadline,
        Event.write [97, 61, 61, 10], Event.sleep 0], Status.running⟩ := by
  refine ⟨?_, by decide⟩
  intro e he
  obtain ⟨rounds, tail, htr, _, hcase⟩ := handle_shape maxAlloc c rs cfg fuel
  rw [htr] at he
  rcases List.mem_append.mp he with he | he
  · rcases List.mem_append.mp he with he | he
    · simp only [List.mem_cons, List.mem_singleton, List.not_mem_nil, or_false] at he
      rcases he with rfl | rfl <;> rfl
    · rcases mem_stallRounds rounds e he with rfl | ⟨d, rfl⟩ | ⟨t, rfl⟩ <;> rfl
  · rcases hcase with ⟨rfl, _⟩ | ⟨_, ⟨rfl, _⟩ | ⟨rfl, _⟩ | ⟨rfl, _⟩ | ⟨d, rfl, _⟩⟩
    · simp only [List.mem_cons, List.mem_singleton, List.not_mem_nil, or_false] at he
      rcases he with rfl | rfl <;> rfl
    · simp at he
    · simp only [List.mem_cons, List.mem_singleton, List.not_mem_nil, or_false] at he
      rcases he with rfl | rfl | rfl <;> rfl
    · simp only [List.mem_cons, List.mem_singleton, List.not_mem_nil, or_false] at he
      rcases he with rfl | rfl <;> rfl
    · simp only [List.mem_cons, List.mem_singleton, List.not_mem_nil, or_false] at he
      rcases he with rfl | rfl | rfl | rfl <;> rfl

/-- C5 does not hold of the code: on a connection whose every `Read` would
fail with an error that is not a timeout, `handle` does not return from the
drain phase; it calls no `Read`, resets the deadline and calls `Write`. -/
theorem handle_writes_to_reset_peer :
    (∀ k, resetPeer.read k = (0, some NetErr.other)) ∧
    handle linuxMaxAlloc resetPeer zeroRand defaultConfig 1 =
      ⟨[Event.logConnection, Event.setDeadline, Event.setDeadline,
        Event.write [97, 61, 61, 10], Event.logClosed 0, Event.close], Status.returned⟩ :=
  ⟨fun _ => rfl, by decide⟩

set_option maxRecDepth 20000 in
/-- C6, as stated, fails: the peer sent nothing and closed its write side (a
`Read` yields zero bytes); when the second `SetDeadline` fails, `handle`
returns without any `Write`, and so it does when the flag `-l` is `2 ^ 64 - 1`
and the length drawn is too large for `make`, which panics. -/
theorem handle_no_write_when_deadline_or_make_fails :
    (∀ k, (eofPeerDeadlineFails.read k).1 = 0) ∧
    handle linuxMaxAlloc eofPeerDeadlineFails zeroRand defaultConfig 1 =
      ⟨[Event.logConnection, Event.setDeadline, Event.setDeadline,
        Event.logDeadlineWrite, Event.close], Status.returned⟩ ∧
    (∀ k, (eofPeer.read k).1 = 0) ∧
    handle linuxMaxAlloc eofPeer topRand hugeLineConfig 1 =
      ⟨[Event.logConnection, Event.setDeadline, Event.setDeadline, Event.close],
        Status.panicked⟩ :=
  ⟨fun _ => rfl, by decide, fun _ => rfl, by decide⟩

/-- C6, amended: on every connection on which the `SetDeadline` before the
drain and the one of the first stall iteration succeed, for flags whose line
length `make` can allocate, `handle` completes the drain phase without ending
the connection and goes on to the stall phase: it resets the deadline and
writes a payload, the one that `getRandomData` returns. This holds whatever
the peer sends, so also for a peer that sends no data and closes its write
side at once. -/
theorem handle_proceeds_to_stall (maxAlloc : Nat) (c : Conn) (rs : RandSrc) (cfg : Config)
    (fuel : Nat) (hd0 : c.setDeadline 0 = none) (hd1 : c.setDeadline 1 = none)
    (hint : max cfg.lineLength 4 < 9223372036854775808)
    (hlim : max cfg.lineLength 4 ≤ maxAlloc) (hfuel : 1 ≤ fuel) :
    ∃ (data : List Nat) (rest : List Event),
      getRandomData maxAlloc (lineAmount cfg.lineLength (rs.floats 0))
        (fun i => rs.ints (0 + i)) = some data ∧
      (handle maxAlloc c rs cfg fuel).trace =
        [Event.logConnection, Event.setDeadline, Event.setDeadline, Event.write data] ++ rest := by
  obtain ⟨f, rfl⟩ : ∃ f, fuel = f + 1 := ⟨fuel - 1, by omega⟩
  rw [handle_of_deadline_ok maxAlloc c rs cfg _ hd0]
  have hdata := getRandomData_eq maxAlloc (lineAmount cfg.lineLength (rs.floats 0))
    (fun i => rs.ints (0 + i))
    (canAlloc_lineAmount maxAlloc _ _ ((canAlloc_iff _ _).mpr ⟨hint, hlim⟩))
  refine ⟨_, ?_, hdata, ?_⟩
  · exact (match writeOK (c.write 0) with
      | true => Event.sleep (randSleep cfg.delay (rs.floats 1)) ::
          (stallLoop maxAlloc c rs cfg f
            ⟨wrapInt64 (0 + (c.write 0).1), 2, 1,
              0 + ((payloadOf (lineAmount cfg.lineLength (rs.floats 0))
                (fun i => rs.ints (0 + i))).length - 3), 2⟩).trace
      | false => [Event.logClosed (wrapInt64 (0 + (c.write 0).1)), Event.close])
  · cases hw : writeOK (c.write 0) with
    | true =>
      rw [stallLoop_step_ok maxAlloc c rs cfg f ⟨0, 1, 0, 0, 0⟩ _ hd1 hdata hw]
      simp [Run.after]
    | false =>
      rw [stallLoop_step_fail maxAlloc c rs cfg f ⟨0, 1, 0, 0, 0⟩ _ hd1 hdata hw]
      simp [Run.after]

/-- An instance: the peer that closed its write side and keeps reading. -/
theorem handle_proceeds_to_stall_witness :
    (∀ k, (eofPeer.read k).1 = 0) ∧ eofPeer.setDeadline 0 = none ∧
    eofPeer.setDeadline 1 = none ∧ max defaultConfig.lineLength 4 < 9223372036854775808 ∧
    max defaultConfig.lineLength 4 ≤ linuxMaxAlloc ∧ 1 ≤ 1 ∧
    ∃ (data : List Nat) (rest : List Event),
      getRandomData linuxMaxAlloc (lineAmount defaultConfig.lineLength (zeroRand.floats 0))
        (fun i => zeroRand.ints (0 + i)) = some data ∧
      (handle linuxMaxAlloc eofPeer zeroRand defaultConfig 1).trace =
        [Event.logConnection, Event.setDeadline, Event.setDeadline, Event.write data] ++ rest :=
  ⟨fun _ => rfl, rfl, rfl, by decide, by decide, Nat.le_refl 1,
    handle_proceeds_to_stall linuxMaxAlloc eofPeer zeroRand defaultConfig 1 rfl rfl
      (by decide) (by decide) (Nat.le_refl 1)⟩

/-- C7: whatever the connection does, every run of `handle` that has ended (by
a return on any path, or by the panic of `make`, which also runs the deferred
call) has `Close` as its last event and no `Close` before it: the connection
is closed on every exit path, and no `Read`, `Write` or `SetDeadline` comes
after `Close`. -/
theorem handle_closes_on_exit (maxAlloc : Nat) (c : Conn) (rs : RandSrc) (cfg : Config)
    (fuel : Nat) (h : (handle maxAlloc c rs cfg fuel).status ≠ Status.running) :
    ∃ pre : List Event, (handle maxAlloc c rs cfg fuel).trace = pre ++ [Event.close] ∧
      Event.close ∉ pre := by
  obtain ⟨rounds, tail, htr, _, hcase⟩ := handle_shape maxAlloc c rs cfg fuel
  have hrounds : Event.close ∉ [Event.logConnection, Event.setDeadline] ++ stallRounds rounds := by
    intro hmem
    rcases List.mem_append.mp hmem with hm | hm
    · simp at hm
    · rcases mem_stallRounds rounds _ hm with he | ⟨d, he⟩ | ⟨t, he⟩ <;> cases he
  have key : ∀ mid : List Event, Event.close ∉ mid → tail = mid ++ [Event.close] →
      ∃ pre : List Event, (handle maxAlloc c rs cfg fuel).trace = pre ++ [Event.close] ∧
        Event.close ∉ pre := by
    intro mid hmid htail
    refine ⟨([Event.logConnection, Event.setDeadline] ++ stallRounds rounds) ++ mid,
      by rw [htr, htail]; simp only [List.append_assoc], ?_⟩
    intro hmem
    rcases List.mem_append.mp hmem with hm | hm
    · exact hrounds hm
    · exact hmid hm
  rcases hcase with ⟨rfl, _⟩ | ⟨_, ⟨_, hst, _⟩ | ⟨rfl, _⟩ | ⟨rfl, _⟩ | ⟨d, rfl, _⟩⟩
  · exact key [Event.logDeadlineRead] (by simp) rfl
  · exact absurd hst h
  · exact key [Event.setDeadline, Event.logDeadlineWrite] (by simp) rfl
  · exact key [Event.setDeadline] (by simp) rfl
  · exact key [Event.setDeadline, Event.write d, Event.logClosed _] (by simp) rfl

set_option maxRecDepth 20000 in
/-- An instance: the run that ends by the panic of `make`. -/
theorem handle_closes_on_exit_witness :
    (handle linuxMaxAlloc silentPeer topRand hugeLineConfig 1).status ≠ Status.running ∧
    ∃ pre : List Event,
      (handle linuxMaxAlloc silentPeer topRand hugeLineConfig 1).trace = pre ++ [Event.close] ∧
      Event.close ∉ pre :=
  ⟨by decide, handle_closes_on_exit linuxMaxAlloc silentPeer topRand hugeLineConfig 1 (by decide)⟩

/-- C10, as stated, fails: the first `Write` times out after two bytes; no
write has succeeded, so the sum over the successful writes is 0, but the total
that `handle` reports is 2. -/
theorem reported_total_includes_failed_write :
    shortWritePeer.write 0 = (2, some NetErr.deadlineExceeded) ∧
    successTotal shortWritePeer 1 = 0 ∧
    reportedTotal (handle linuxMaxAlloc shortWritePeer zeroRand defaultConfig 1).trace = some 2 :=
  ⟨rfl, by decide, by decide⟩

/-- C10, amended: whenever `handle` reports a total, the stall phase has ended
on a failing `Write`, of index `k` say, after `k` successful ones, and the
total is the sum of the byte counts of the successful writes plus the byte
count that the failing write returned, as an `int64`: the count is added
before the result of the write is tested. The total is reported as soon as
the failing write is reached (the deadline resets succeed, the payloads can be
allocated). -/
theorem reported_total_eq (maxAlloc : Nat) (c : Conn) (rs : RandSrc) (cfg : Config)
    (fuel : Nat) :
    (∀ w, reportedTotal (handle maxAlloc c rs cfg fuel).trace = some w →
      ∃ k, (∀ i, i < k → (c.write i).2 = none ∧ (c.write i).1 ≠ 0) ∧
        ((c.write k).2 ≠ none ∨ (c.write k).1 = 0) ∧
        w = wrapInt64 (successTotal c k + ((c.write k).1 : Int)) ∧
        (successTotal c k + ((c.write k).1 : Int) < 9223372036854775808 →
          w = successTotal c k + ((c.write k).1 : Int))) ∧
    (∀ k, (∀ j, j ≤ k + 1 → c.setDeadline j = none) →
      max cfg.lineLength 4 < 9223372036854775808 → max cfg.lineLength 4 ≤ maxAlloc →
      (∀ i, i < k → (c.write i).2 = none ∧ (c.write i).1 ≠ 0) →
      ((c.write k).2 ≠ none ∨ (c.write k).1 = 0) → k < fuel →
      reportedTotal (handle maxAlloc c rs cfg fuel).trace =
        some (wrapInt64 (successTotal c k + ((c.write k).1 : Int)))) := by
  have hhead : ∀ (rounds : List (List Nat × Int)) (tail : List Event),
      reportedTotal ([Event.logConnection, Event.setDeadline] ++ stallRounds rounds ++ tail) =
        reportedTotal tail := by
    intro rounds tail
    show reportedTotal (Event.logConnection :: Event.setDeadline ::
      (stallRounds rounds ++ tail)) = _
    simp only [reportedTotal, reportedTotal_stallRounds]
  constructor
  · intro w hw
    obtain ⟨rounds, tail, htr, hidx, hcase⟩ := handle_shape maxAlloc c rs cfg fuel
    rw [htr, hhead] at hw
    rcases hcase with ⟨rfl, _⟩ | ⟨_, ⟨rfl, _⟩ | ⟨rfl, _⟩ | ⟨rfl, _⟩ | ⟨d, rfl, _, h3, _⟩⟩
    · simp [reportedTotal] at hw
    · simp [reportedTotal] at hw
    · simp [reportedTotal] at hw
    · simp [reportedTotal] at hw
    · simp only [reportedTotal, Nat.zero_add, Option.some.injEq] at hw h3
      have hok : ∀ i, i < rounds.length → writeOK (c.write i) = true :=
        fun i hi => (hidx i hi).2
      have hW0 : writtenTotal c 0 = 0 := rfl
      rw [hW0, writtenTotal_succ, writtenTotal_eq_successTotal c _ hok] at hw
      simp only [Int.sub_zero, Int.zero_add] at hw
      refine ⟨rounds.length, fun i hi => (writeOK_true_iff _).mp (hok i hi),
        (writeOK_false_iff _).mp h3, hw.symm, fun hlt => ?_⟩
      have hnn : 0 ≤ successTotal c rounds.length + ((c.write rounds.length).1 : Int) := by
        rw [← writtenTotal_eq_successTotal c _ hok, ← writtenTotal_succ]
        exact writtenTotal_nonneg c _
      rw [← hw]
      unfold wrapInt64
      omega
  · intro k hd hint hlim hok hfail hfuel
    have hok1 : ∀ i, i < k → writeOK (c.write i) = true :=
      fun i hi => (writeOK_true_iff _).mpr (hok i hi)
    obtain ⟨rounds, data, _, hrun⟩ :=
      handle_first_failure maxAlloc c rs cfg k fuel ((canAlloc_iff _ _).mpr ⟨hint, hlim⟩)
        hd hok1 ((writeOK_false_iff _).mpr hfail) hfuel
    rw [hrun, hhead, writtenTotal_succ, writtenTotal_eq_successTotal c k hok1]
    simp only [reportedTotal]

/-- An instance: two writes of four bytes, then a timeout after two bytes. -/
theorem reported_total_eq_witness :
    reportedTotal (handle linuxMaxAlloc twoWritesPeer zeroRand defaultConfig 3).trace =
        some 10 ∧
    reportedTotal (handle linuxMaxAlloc twoWritesPeer zeroRand defaultConfig 3).trace =
      some (wrapInt64 (successTotal twoWritesPeer 2 + ((twoWritesPeer.write 2).1 : Int))) :=
  ⟨by decide,
    (reported_total_eq linuxMaxAlloc twoWritesPeer zeroRand defaultConfig 3).2 2
      (fun _ _ => rfl) (by decide) (by decide) (by decide) (by decide) (by decide)⟩

end Ges
